import Mathlib

/-!
Trigram counter: tokenizer, counter and ranker of `src/main.cpp`.

A shallow embedding of `consolidateSequences`, `generateTrigramMap` and
`sortTrigrams`, followed by the properties proved about them.

* A wide character (`wchar_t`) is its code point, a natural number; a
  `std::wstring` is a list of code points.
* `std::towlower` and `iswalnum` belong to the C library and depend on the
  process locale (`main` installs the environment's locale), so the embedding
  takes them as a `Locale` parameter. What the properties need from a locale is
  collected in `Locale.Conforming`.
* `std::map<std::wstring, int>` is an association list whose keys are strictly
  ascending for `operator<` on `std::wstring` (`KeysAscending`); iteration
  order is list order. A count is an `int`: an integer that the increment
  stores on 32 bits, two's complement (`wrapInt`), which is what the increment
  of a count at `INT_MAX` gives on the platforms the program is built for.
* `std::vector::operator[]` out of range is undefined behaviour; it is the
  result `none`.
* `std::sort` is library code with a contract (the result is a permutation of
  the input, ordered for the comparator; the order of equivalent elements is
  unspecified), so `sortTrigrams` takes the sorting routine as a parameter and
  the contract is `StdSortContract`. Where the order of equal counts matters
  the routine is `stdSort`, the `std::sort` of libstdc++.
-/

namespace Trigrams

/-! ## Characters, strings, locale -/

/-- A `std::wstring`: the code points of its `wchar_t` elements. -/
abbrev WString := List Nat

/-- The wide string of a string literal. -/
def wstr (s : String) : WString := s.toList.map Char.toNat

/-- The two locale-dependent C library functions `consolidateSequences` calls. -/
structure Locale where
  /-- The function `std::towlower`. -/
  towlower : Nat → Nat
  /-- The function `iswalnum`. -/
  iswalnum : Nat → Bool

/-- ASCII digits and letters: `iswalnum` in the 7-bit range. -/
def isAsciiAlnum (c : Nat) : Bool :=
  (48 ≤ c && c ≤ 57) || (65 ≤ c && c ≤ 90) || (97 ≤ c && c ≤ 122)

/-- ASCII punctuation (`ispunct` in the "C" locale): the printable 7-bit
characters other than space, digits and letters. -/
def isAsciiPunct (c : Nat) : Bool :=
  (33 ≤ c && c ≤ 47) || (58 ≤ c && c ≤ 64) || (91 ≤ c && c ≤ 96) || (123 ≤ c && c ≤ 126)

/-- What the properties below rely on from `towlower` and `iswalnum`; it holds
in the locales of the C library.
* `towlower` changes upper-case letters only, and those are alphanumeric;
* the lower-case form of an alphanumeric character is alphanumeric;
* `towlower` is idempotent;
* on the 7-bit range `iswalnum` is the ASCII classification;
* ASCII lower-case letters and digits are their own lower-case form;
* the two curly double quotes are not alphanumeric. -/
structure Locale.Conforming (L : Locale) : Prop where
  towlower_of_not_alnum : ∀ c, L.iswalnum c = false → L.towlower c = c
  alnum_towlower : ∀ c, L.iswalnum c = true → L.iswalnum (L.towlower c) = true
  towlower_idem : ∀ c, L.towlower (L.towlower c) = L.towlower c
  alnum_ascii : ∀ c, c ≤ 127 → L.iswalnum c = isAsciiAlnum c
  towlower_lower : ∀ c, ((97 ≤ c ∧ c ≤ 122) ∨ (48 ≤ c ∧ c ≤ 57)) → L.towlower c = c
  curly_not_alnum : L.iswalnum 0x201C = false ∧ L.iswalnum 0x201D = false

/-- The "C" locale: only ASCII letters have case, only ASCII letters and digits
are alphanumeric. -/
def cLocale : Locale where
  towlower := fun c => if 65 ≤ c ∧ c ≤ 90 then c + 32 else c
  iswalnum := isAsciiAlnum

/-! ## Tokenizer -/

/-- The test of line 26: straight double quote, left and right curly double
quote. -/
def isDoubleQuote (c : Nat) : Bool :=
  c == 0x22 || c == 0x201C || c == 0x201D

/-- One iteration of the loop of `consolidateSequences` on the state
`(word, words)`. -/
def tokenStep (L : Locale) (st : WString × List WString) (c0 : Nat) :
    WString × List WString :=
  let c := L.towlower c0
  let c := if isDoubleQuote c then 0x20 else c
  if L.iswalnum c || decide (c > 127) then
    (st.1 ++ [c], st.2)
  else if c == 0x20 || c == 0x0A then
    if st.1 ≠ [] then ([], st.2 ++ [st.1]) else st
  else
    st

/-- The tokens pushed once the loop has ended in state `(word, words)`: the
pending word, when there is one, is the last token. -/
def flushWord (st : WString × List WString) : List WString :=
  if st.1 ≠ [] then st.2 ++ [st.1] else st.2

/-- The function `consolidateSequences`: the words of `text`. -/
def consolidateSequences (L : Locale) (text : WString) : List WString :=
  flushWord (text.foldl (tokenStep L) ([], []))

/-! ## Frequency table -/

/-- The order `operator<` of `std::wstring`: lexicographic on code points, a
proper prefix comes first. -/
def wstrLt : WString → WString → Bool
  | [], [] => false
  | [], _ :: _ => true
  | _ :: _, [] => false
  | a :: as, b :: bs => decide (a < b) || (decide (a = b) && wstrLt as bs)

/-- A `std::pair<std::wstring, int>`. -/
abbrev Entry := WString × Int

/-- A `std::map<std::wstring, int>`, as its entries in iteration order. -/
abbrev TrigramMap := List Entry

/-- The invariant of `std::map`: keys strictly ascending (so pairwise
distinct). -/
def KeysAscending (m : TrigramMap) : Prop :=
  m.Pairwise (fun a b => wstrLt a.1 b.1 = true)

instance (m : TrigramMap) : Decidable (KeysAscending m) := by
  unfold KeysAscending
  infer_instance

/-- The values of the table are of type `int`. -/
def CountsInRange (m : TrigramMap) : Prop :=
  ∀ e ∈ m, -2147483648 ≤ e.2 ∧ e.2 ≤ 2147483647

instance (m : TrigramMap) : Decidable (CountsInRange m) := by
  unfold CountsInRange
  infer_instance

/-- The keys of the table. -/
def keys (m : TrigramMap) : List WString := m.map Prod.fst

/-- The count stored under `key`, `0` when the key is absent. -/
def count (m : TrigramMap) (key : WString) : Int :=
  match m with
  | [] => 0
  | (k, v) :: rest => if key = k then v else count rest key

/-- The largest value of `int`. -/
def INT_MAX : Int := 2147483647

/-- The value an `int` holds after an arithmetic result `x` is stored in it:
`x` modulo `2 ^ 32`, in the range from `-2147483648` to `2147483647`. -/
def wrapInt (x : Int) : Int := (x + 2147483648) % 4294967296 - 2147483648

/-- The statement `trigramMap[sequence]++`: `operator[]` finds the key or
inserts it at its place in key order with the value `0`, and the `int` value
is incremented. -/
def increment (key : WString) : TrigramMap → TrigramMap
  | [] => [(key, wrapInt (0 + 1))]
  | (k, v) :: rest =>
    if wstrLt key k then (key, wrapInt (0 + 1)) :: (k, v) :: rest
    else if key = k then (k, wrapInt (v + 1)) :: rest
    else (k, v) :: increment key rest

/-! ## Counter -/

/-- The number of values of `size_t`. -/
def SIZE_MOD : Nat := 2 ^ 64

/-- The loop bound `words.size() - 2`, computed in `size_t`. -/
def loopBound (n : Nat) : Nat := (n + SIZE_MOD - 2) % SIZE_MOD

/-- The key `words[i] + L" " + words[i + 1] + L" " + words[i + 2]`. -/
def sequenceKey (w0 w1 w2 : WString) : WString :=
  w0 ++ [0x20] ++ w1 ++ [0x20] ++ w2

/-- The loop of `generateTrigramMap`, with `remaining` iterations still to run
from index `i` (the body changes neither `i` nor the bound, so the loop
`for (i = 0; i < bound; ++i)` runs `bound` times). An access outside the
vector ends the run with `none`. -/
def trigramLoop (words : List WString) : Nat → Nat → TrigramMap → Option TrigramMap
  | 0, _, m => some m
  | remaining + 1, i, m =>
    match words[i]?, words[i + 1]?, words[i + 2]? with
    | some w0, some w1, some w2 =>
      trigramLoop words remaining (i + 1) (increment (sequenceKey w0 w1 w2) m)
    | _, _, _ => none

/-- The function `generateTrigramMap`: the table after the call, `none` when the
call reads outside `words`. -/
def generateTrigramMap (L : Locale) (data : WString) (trigramMap : TrigramMap) :
    Option TrigramMap :=
  let words := consolidateSequences L data
  trigramLoop words (loopBound words.length) 0 trigramMap

/-! ## Ranker -/

/-- The comparator passed to `std::sort`: `a.second > b.second`. -/
def countGreater (a b : Entry) : Bool := decide (a.2 > b.2)

/-- The contract of `std::sort` for the comparator `countGreater`: the result is
a permutation of the input and no later element compares before an earlier
one. Nothing is promised on the order of elements with equal counts. -/
def StdSortContract (sort : List Entry → List Entry) : Prop :=
  ∀ l, (sort l).Perm l ∧ (sort l).Pairwise (fun a b => countGreater b a = false)

/-- A sorting routine is stable when it keeps the input order of the elements
of each count. -/
def StableSort (sort : List Entry → List Entry) : Prop :=
  ∀ l (c : Int), (sort l).filter (fun e => decide (e.2 = c)) = l.filter (fun e => decide (e.2 = c))

/-- The function `sortTrigrams`, as the list of the `(key, count)` lines it
prints: the entries in map order are sorted by `sort` and the first 100 (or
fewer) are printed. -/
def sortTrigrams (sort : List Entry → List Entry) (trigramMap : TrigramMap) : List Entry :=
  (sort trigramMap).take 100

/-- Insertion of an entry before the first entry whose count is not greater
than its own. -/
def insertByCount (e : Entry) : List Entry → List Entry
  | [] => [e]
  | x :: rest => if countGreater x e then x :: insertByCount e rest else e :: x :: rest

/-- A stable sorting routine that meets the contract: insertion sort. -/
def insertionSort : List Entry → List Entry
  | [] => []
  | e :: rest => insertByCount e (insertionSort rest)

/-! ## The routine `std::sort` of libstdc++

The program is built with GCC, whose `std::sort` (`bits/stl_algo.h`,
`bits/stl_heap.h`) is an introsort: partitioning around a median of three while
a range has more than 16 elements, heap sort when the depth limit is used up,
and a final insertion sort. A range is a list and an iterator is an index into
it. -/

/-- The constant `_S_threshold`. -/
def S_threshold : Nat := 16

/-- The element `*(first + i)` of the range. -/
def elemAt (a : List Entry) (i : Nat) : Entry := a.getD i ([], 0)

/-- The function `std::iter_swap`. -/
def iterSwap (a : List Entry) (i j : Nat) : List Entry :=
  (a.set i (elemAt a j)).set j (elemAt a i)

/-- The loop of `std::__lg`, with a bound on the number of halvings. -/
def lgLoop : Nat → Nat → Nat
  | 0, _ => 0
  | fuel + 1, n => if n < 2 then 0 else lgLoop fuel (n / 2) + 1

/-- The function `std::__lg`: the binary logarithm, rounded down. -/
def lg (n : Nat) : Nat := lgLoop n n

/-- The function `__move_median_to_first`: the median of `*x`, `*y`, `*z` for the
comparator is swapped to `*result`. -/
def moveMedianToFirst (a : List Entry) (result x y z : Nat) : List Entry :=
  if countGreater (elemAt a x) (elemAt a y) then
    if countGreater (elemAt a y) (elemAt a z) then iterSwap a result y
    else if countGreater (elemAt a x) (elemAt a z) then iterSwap a result z
    else iterSwap a result x
  else if countGreater (elemAt a x) (elemAt a z) then iterSwap a result x
  else if countGreater (elemAt a y) (elemAt a z) then iterSwap a result z
  else iterSwap a result y

/-- The loop `while (comp(first, pivot)) ++first;` of `__unguarded_partition`.
The bound on the number of steps is never reached in a run of `std::sort`:
the median left at `*pivot` stops the scan inside the range. -/
def scanUp (a : List Entry) (pivot : Nat) : Nat → Nat → Nat
  | 0, first => first
  | fuel + 1, first =>
    if countGreater (elemAt a first) (elemAt a pivot) then scanUp a pivot fuel (first + 1)
    else first

/-- The loop `while (comp(pivot, last)) --last;` of `__unguarded_partition`,
bounded as `scanUp`. -/
def scanDown (a : List Entry) (pivot : Nat) : Nat → Nat → Nat
  | 0, last => last
  | fuel + 1, last =>
    if countGreater (elemAt a pivot) (elemAt a last) then scanDown a pivot fuel (last - 1)
    else last

/-- The function `__unguarded_partition`; it returns the range and the cut.
Each round moves `first` up by at least one, so `a.length` rounds are enough. -/
def unguardedPartition (pivot : Nat) : Nat → List Entry → Nat → Nat → List Entry × Nat
  | 0, a, first, _ => (a, first)
  | fuel + 1, a, first, last =>
    let first1 := scanUp a pivot a.length first
    let last1 := scanDown a pivot a.length (last - 1)
    if first1 < last1 then unguardedPartition pivot fuel (iterSwap a first1 last1) (first1 + 1) last1
    else (a, first1)

/-- The function `__unguarded_partition_pivot`. -/
def unguardedPartitionPivot (a : List Entry) (first last : Nat) : List Entry × Nat :=
  let mid := first + (last - first) / 2
  let a1 := moveMedianToFirst a first (first + 1) mid (last - 1)
  unguardedPartition first a1.length a1 (first + 1) last

/-- The function `__push_heap`, with a bound on the number of steps up. -/
def pushHeap (first : Nat) (value : Entry) : Nat → List Entry → Nat → Nat → List Entry
  | 0, a, holeIndex, _ => a.set (first + holeIndex) value
  | fuel + 1, a, holeIndex, topIndex =>
    let parent := (holeIndex - 1) / 2
    if holeIndex > topIndex ∧ countGreater (elemAt a (first + parent)) value = true then
      pushHeap first value fuel (a.set (first + holeIndex) (elemAt a (first + parent))) parent topIndex
    else a.set (first + holeIndex) value

/-- The loop of `__adjust_heap` that moves the hole down to a leaf; it returns
the range and the hole. -/
def siftDown (first len : Nat) : Nat → List Entry → Nat → List Entry × Nat
  | 0, a, hole => (a, hole)
  | fuel + 1, a, hole =>
    if hole < (len - 1) / 2 then
      let c := 2 * (hole + 1)
      let c1 := if countGreater (elemAt a (first + c)) (elemAt a (first + (c - 1))) then c - 1 else c
      siftDown first len fuel (a.set (first + hole) (elemAt a (first + c1))) c1
    else (a, hole)

/-- The function `__adjust_heap`. -/
def adjustHeap (a : List Entry) (first holeIndex len : Nat) (value : Entry) : List Entry :=
  let s := siftDown first len len a holeIndex
  let t := if len % 2 = 0 ∧ s.2 = (len - 2) / 2 then
      (s.1.set (first + s.2) (elemAt s.1 (first + (2 * (s.2 + 1) - 1))), 2 * (s.2 + 1) - 1)
    else s
  pushHeap first value len t.1 t.2 holeIndex

/-- The loop of `__make_heap`, from `parent` down to `0`. -/
def makeHeapLoop (first len : Nat) : Nat → List Entry → List Entry
  | 0, a => adjustHeap a first 0 len (elemAt a first)
  | parent + 1, a =>
    makeHeapLoop first len parent
      (adjustHeap a first (parent + 1) len (elemAt a (first + (parent + 1))))

/-- The function `__make_heap`. -/
def makeHeap (a : List Entry) (first last : Nat) : List Entry :=
  if last - first < 2 then a else makeHeapLoop first (last - first) ((last - first - 2) / 2) a

/-- The function `__pop_heap`. -/
def popHeap (a : List Entry) (first last result : Nat) : List Entry :=
  adjustHeap (a.set result (elemAt a first)) first 0 (last - first) (elemAt a result)

/-- The function `__sort_heap` on the `len` elements from `first`. -/
def sortHeap (first : Nat) : Nat → List Entry → List Entry
  | 0, a => a
  | len + 1, a =>
    if len + 1 > 1 then sortHeap first len (popHeap a first (first + len) (first + len)) else a

/-- The call `__partial_sort(first, last, last)`: heap sort of the range (the
loop of `__heap_select` is empty when `middle` is `last`). -/
def partialSort (a : List Entry) (first last : Nat) : List Entry :=
  sortHeap first (last - first) (makeHeap a first last)

/-- The function `__introsort_loop`: the first argument is the depth limit. The
recursive call sorts the part after the cut and the loop goes on with the part
before it. -/
def introsortLoop : Nat → List Entry → Nat → Nat → List Entry
  | 0, a, first, last => if last - first > S_threshold then partialSort a first last else a
  | depth + 1, a, first, last =>
    if last - first > S_threshold then
      let p := unguardedPartitionPivot a first last
      introsortLoop depth (introsortLoop depth p.1 p.2 last) first p.2
    else a

/-- The function `__unguarded_linear_insert`. The list is the part of the range
before `last`, nearest element first; the result is the range up to and
including `last`, in the same order. -/
def unguardedLinearInsert (val : Entry) : List Entry → List Entry
  | [] => [val]
  | x :: before =>
    if countGreater val x then x :: unguardedLinearInsert val before else val :: x :: before

/-- One round of the loop of `__insertion_sort`: `sorted` is the range before
`i`, `val` is `*i`. -/
def insertionSortStep (sorted : List Entry) (val : Entry) : List Entry :=
  match sorted with
  | [] => [val]
  | f :: _ =>
    if countGreater val f then val :: sorted
    else (unguardedLinearInsert val sorted.reverse).reverse

/-- The function `__insertion_sort`. -/
def stdInsertionSort : List Entry → List Entry
  | [] => []
  | x :: rest => rest.foldl insertionSortStep [x]

/-- The function `__unguarded_insertion_sort` on `rest`, which comes after
`sorted` in the range. -/
def unguardedInsertionSort (sorted rest : List Entry) : List Entry :=
  rest.foldl (fun done val => (unguardedLinearInsert val done.reverse).reverse) sorted

/-- The function `__final_insertion_sort`. -/
def finalInsertionSort (a : List Entry) : List Entry :=
  if a.length > S_threshold then
    unguardedInsertionSort (stdInsertionSort (a.take S_threshold)) (a.drop S_threshold)
  else stdInsertionSort a

/-- The function `std::sort` of libstdc++ with the comparator `countGreater`. -/
def stdSort (a : List Entry) : List Entry :=
  if a = [] then a
  else finalInsertionSort (introsortLoop (lg a.length * 2) a 0 a.length)

/-! ## Reading of the properties -/

/-- The key of the window of `words` that starts at index `i`. -/
def trigramAt (words : List WString) (i : Nat) : WString :=
  sequenceKey (words.getD i []) (words.getD (i + 1) []) (words.getD (i + 2) [])

/-- The number of indices `i` in `[0, n - 3]` whose window has the key `k`. -/
def occurrences (words : List WString) (k : WString) : Nat :=
  ((List.range (words.length - 2)).filter (fun i => decide (trigramAt words i = k))).length

/-- The value of an `int` counter that held `c` after `j` increments. -/
def afterIncrements (c : Int) (j : Nat) : Int :=
  if j = 0 then c else wrapInt (c + j)

/-- The number of indices `j` in `[i, i + r)` whose window has the key `k`. -/
def occurrencesFrom (words : List WString) (i r : Nat) (k : WString) : Nat :=
  ((List.range' i r).filter (fun j => decide (trigramAt words j = k))).length

/-- The character the loop body of `consolidateSequences` examines for the
input character `c0`: its lower-case form, or a space when that is a double
quote. -/
def foldChar (L : Locale) (c0 : Nat) : Nat :=
  if isDoubleQuote (L.towlower c0) then 0x20 else L.towlower c0

/-- The characters the loop body appends to the current word. -/
def isWordChar (L : Locale) (c0 : Nat) : Bool :=
  L.iswalnum (foldChar L c0) || decide (foldChar L c0 > 127)

/-- The separators named by the tokenizer rules: space, newline, straight
double quote, left and right curly double quote. -/
def isSeparator (c : Nat) : Bool :=
  c == 0x20 || c == 0x0A || c == 0x22 || c == 0x201C || c == 0x201D

/-- Code points with the Unicode property White_Space. -/
def isWhitespace (c : Nat) : Bool :=
  (9 ≤ c && c ≤ 13) || c == 0x20 || c == 0x85 || c == 0xA0 || c == 0x1680 ||
  (0x2000 ≤ c && c ≤ 0x200A) || c == 0x2028 || c == 0x2029 || c == 0x202F ||
  c == 0x205F || c == 0x3000

/-- Quotation marks: the ASCII ones, the guillemets and the curly and low
single and double quotes. -/
def isQuotationMark (c : Nat) : Bool :=
  c == 0x22 || c == 0x27 || c == 0xAB || c == 0xBB || (0x2018 ≤ c && c ≤ 0x201F) ||
  c == 0x2039 || c == 0x203A

/-- The upper-case form of an ASCII letter; other characters are unchanged. -/
def asciiUpper (c : Nat) : Nat :=
  if 97 ≤ c ∧ c ≤ 122 then c - 32 else c

/-- The words joined with single spaces. -/
def joinWords : List WString → WString
  | [] => []
  | [w] => w
  | w :: v :: rest => w ++ [0x20] ++ joinWords (v :: rest)

/-- The sum of the counts stored in the table. -/
def totalCount (m : TrigramMap) : Int := (m.map Prod.snd).sum

/-- Entries of equal count come in ascending key order. -/
def TiesAscending (report : List Entry) : Prop :=
  report.Pairwise (fun a b => a.2 = b.2 → wstrLt a.1 b.1 = true)

instance (report : List Entry) : Decidable (TiesAscending report) := by
  unfold TiesAscending
  infer_instance

/-! ## The self-tests of `runAllTests`, in the "C" locale -/

theorem runAllTests_basic :
    consolidateSequences cLocale (wstr "I love sandwiches.") =
      [wstr "i", wstr "love", wstr "sandwiches"] := by decide

theorem runAllTests_multiple_spaces :
    consolidateSequences cLocale (wstr "I   love         sandwiches") =
      [wstr "i", wstr "love", wstr "sandwiches"] := by decide

theorem runAllTests_quotes_newline :
    consolidateSequences cLocale (wstr "\"I love\nsandwiches?\"") =
      [wstr "i", wstr "love", wstr "sandwiches"] := by decide

theorem runAllTests_all_caps :
    consolidateSequences cLocale (wstr "I LOVE SANDWICHES!!") =
      [wstr "i", wstr "love", wstr "sandwiches"] := by decide

theorem runAllTests_accents :
    consolidateSequences cLocale (wstr "Prince Vasíli Kurágin") =
      [wstr "prince", wstr "vasíli", wstr "kurágin"] := by decide

theorem runAllTests_curly_quotes :
    consolidateSequences cLocale (wstr "“Sandwiches,” he said") =
      [wstr "sandwiches", wstr "he", wstr "said"] := by decide

/-! ## The "C" locale conforms -/

theorem cLocale_conforming : cLocale.Conforming where
  towlower_of_not_alnum := by
    intro c h
    simp only [cLocale, isAsciiAlnum, Bool.or_eq_false_iff, Bool.and_eq_false_iff,
      decide_eq_false_iff_not] at h
    simp only [cLocale]
    split <;> omega
  alnum_towlower := by
    intro c h
    simp only [cLocale, isAsciiAlnum, Bool.or_eq_true, Bool.and_eq_true, decide_eq_true_eq] at h ⊢
    split <;> omega
  towlower_idem := by
    intro c
    simp only [cLocale]
    split_ifs <;> omega
  alnum_ascii := by
    intro c _
    rfl
  towlower_lower := by
    intro c h
    simp only [cLocale]
    split <;> omega
  curly_not_alnum := by decide

/-! ## Tokenizer: the three kinds of step -/

theorem tokenStep_word (L : Locale) (st : WString × List WString) (c0 : Nat)
    (h : isWordChar L c0 = true) :
    tokenStep L st c0 = (st.1 ++ [foldChar L c0], st.2) := by
  unfold isWordChar foldChar at h
  simp only [tokenStep, foldChar, h, if_true]

theorem tokenStep_separator (L : Locale) (st : WString × List WString) (c0 : Nat)
    (h : isWordChar L c0 = false) (hs : foldChar L c0 = 0x20 ∨ foldChar L c0 = 0x0A) :
    tokenStep L st c0 = ([], flushWord st) := by
  unfold isWordChar foldChar at h
  unfold foldChar at hs
  have hs' : ((if isDoubleQuote (L.towlower c0) then 0x20 else L.towlower c0) == 0x20
      || (if isDoubleQuote (L.towlower c0) then 0x20 else L.towlower c0) == 0x0A) = true := by
    rcases hs with hs | hs <;> simp [hs]
  simp only [tokenStep, h, hs', flushWord]
  by_cases hw : st.1 = []
  · simp only [hw, ne_eq, not_true_eq_false, if_false]
    exact Prod.ext hw rfl
  · simp [hw]

theorem tokenStep_dropped (L : Locale) (st : WString × List WString) (c0 : Nat)
    (h : isWordChar L c0 = false) (h1 : foldChar L c0 ≠ 0x20) (h2 : foldChar L c0 ≠ 0x0A) :
    tokenStep L st c0 = st := by
  unfold isWordChar foldChar at h
  unfold foldChar at h1 h2
  have hs' : ((if isDoubleQuote (L.towlower c0) then 0x20 else L.towlower c0) == 0x20
      || (if isDoubleQuote (L.towlower c0) then 0x20 else L.towlower c0) == 0x0A) = false := by
    simp [h1, h2]
  simp only [tokenStep, h, hs']
  simp

/-- Every step is of one of the three kinds. -/
theorem tokenStep_cases (L : Locale) (st : WString × List WString) (c0 : Nat) :
    (isWordChar L c0 = true ∧ tokenStep L st c0 = (st.1 ++ [foldChar L c0], st.2)) ∨
    (isWordChar L c0 = false ∧ tokenStep L st c0 = ([], flushWord st)) ∨
    (isWordChar L c0 = false ∧ tokenStep L st c0 = st) := by
  by_cases h : isWordChar L c0 = true
  · exact Or.inl ⟨h, tokenStep_word L st c0 h⟩
  · have h' : isWordChar L c0 = false := by simpa using h
    by_cases hs : foldChar L c0 = 0x20 ∨ foldChar L c0 = 0x0A
    · exact Or.inr (Or.inl ⟨h', tokenStep_separator L st c0 h' hs⟩)
    · have h1 : foldChar L c0 ≠ 0x20 := fun e => hs (Or.inl e)
      have h2 : foldChar L c0 ≠ 0x0A := fun e => hs (Or.inr e)
      exact Or.inr (Or.inr ⟨h', tokenStep_dropped L st c0 h' h1 h2⟩)

theorem flushWord_nil (ws : List WString) : flushWord ([], ws) = ws := by
  simp [flushWord]

/-- The words already pushed are a prefix of the result: one step. -/
theorem tokenStep_words (L : Locale) (w : WString) (ws : List WString) (c0 : Nat) :
    tokenStep L (w, ws) c0 =
      ((tokenStep L (w, []) c0).1, ws ++ (tokenStep L (w, []) c0).2) := by
  simp only [tokenStep]
  split_ifs <;> simp

/-- The words already pushed are a prefix of the result. -/
theorem foldl_tokenStep_words (L : Locale) (t : WString) :
    ∀ (w : WString) (ws : List WString),
      t.foldl (tokenStep L) (w, ws) =
        ((t.foldl (tokenStep L) (w, [])).1, ws ++ (t.foldl (tokenStep L) (w, [])).2) := by
  induction t with
  | nil => intro w ws; simp
  | cons c t ih =>
    intro w ws
    simp only [List.foldl_cons]
    rw [tokenStep_words L w ws c, ih, ih (tokenStep L (w, []) c).1 (tokenStep L (w, []) c).2]
    simp [List.append_assoc]

theorem flushWord_foldl (L : Locale) (t : WString) (w : WString) (ws : List WString) :
    flushWord (t.foldl (tokenStep L) (w, ws)) = ws ++ flushWord (t.foldl (tokenStep L) (w, [])) := by
  rw [foldl_tokenStep_words]
  simp only [flushWord]
  split_ifs <;> simp

/-- Tokenizing a concatenation: the second part runs from the state the first
part leaves. -/
theorem consolidateSequences_append (L : Locale) (a b : WString) :
    consolidateSequences L (a ++ b) =
      flushWord (b.foldl (tokenStep L) (a.foldl (tokenStep L) ([], []))) := by
  simp [consolidateSequences, List.foldl_append]

/-- After a separator step the pending word has been pushed. -/
theorem foldl_separators (L : Locale) (s : WString)
    (hs : ∀ c ∈ s, isWordChar L c = false ∧ (foldChar L c = 0x20 ∨ foldChar L c = 0x0A)) :
    ∀ st : WString × List WString, s ≠ [] →
      s.foldl (tokenStep L) st = ([], flushWord st) := by
  induction s with
  | nil => intro st h; exact absurd rfl h
  | cons c s ih =>
    intro st _
    have hc := hs c (List.mem_cons_self c s)
    simp only [List.foldl_cons]
    rw [tokenStep_separator L st c hc.1 hc.2]
    by_cases hnil : s = []
    · subst hnil; rfl
    · rw [ih (fun c hc => hs c (List.mem_cons_of_mem _ hc)) _ hnil, flushWord_nil]

/-- A dropped character leaves the state as it is. -/
theorem foldl_dropped (L : Locale) (p : Nat) (b : WString) (st : WString × List WString)
    (h : isWordChar L p = false) (h1 : foldChar L p ≠ 0x20) (h2 : foldChar L p ≠ 0x0A) :
    (p :: b).foldl (tokenStep L) st = b.foldl (tokenStep L) st := by
  simp only [List.foldl_cons]
  rw [tokenStep_dropped L st p h h1 h2]

/-- What a step keeps true of the state: every character of the pending word
and of the pushed words is a word character, and no pushed word is empty. -/
theorem tokenStep_invariant (L : Locale) (P : Nat → Prop)
    (hP : ∀ c0, isWordChar L c0 = true → P (foldChar L c0))
    (st : WString × List WString) (c0 : Nat)
    (h1 : ∀ c ∈ st.1, P c) (h2 : ∀ w ∈ st.2, w ≠ [] ∧ ∀ c ∈ w, P c) :
    (∀ c ∈ (tokenStep L st c0).1, P c) ∧
      (∀ w ∈ (tokenStep L st c0).2, w ≠ [] ∧ ∀ c ∈ w, P c) := by
  rcases tokenStep_cases L st c0 with ⟨h, e⟩ | ⟨_, e⟩ | ⟨_, e⟩
  · rw [e]
    refine ⟨?_, h2⟩
    intro c hc
    rcases List.mem_append.mp hc with hc | hc
    · exact h1 c hc
    · rw [List.mem_singleton.mp hc]; exact hP c0 h
  · rw [e]
    refine ⟨by simp, ?_⟩
    intro w hw
    simp only [flushWord] at hw
    split_ifs at hw with hne
    · rcases List.mem_append.mp hw with hw | hw
      · exact h2 w hw
      · rw [List.mem_singleton.mp hw]; exact ⟨hne, h1⟩
    · exact h2 w hw
  · rw [e]; exact ⟨h1, h2⟩

theorem foldl_tokenStep_invariant (L : Locale) (P : Nat → Prop)
    (hP : ∀ c0, isWordChar L c0 = true → P (foldChar L c0)) (t : WString) :
    ∀ st : WString × List WString,
      (∀ c ∈ st.1, P c) → (∀ w ∈ st.2, w ≠ [] ∧ ∀ c ∈ w, P c) →
      (∀ c ∈ (t.foldl (tokenStep L) st).1, P c) ∧
        (∀ w ∈ (t.foldl (tokenStep L) st).2, w ≠ [] ∧ ∀ c ∈ w, P c) := by
  induction t with
  | nil => intro st h1 h2; exact ⟨h1, h2⟩
  | cons c t ih =>
    intro st h1 h2
    have h := tokenStep_invariant L P hP st c h1 h2
    simpa only [List.foldl_cons] using ih _ h.1 h.2

/-- Every token is non-empty and made of characters the loop appended. -/
theorem tokens_invariant (L : Locale) (P : Nat → Prop)
    (hP : ∀ c0, isWordChar L c0 = true → P (foldChar L c0)) (text : WString) :
    ∀ w ∈ consolidateSequences L text, w ≠ [] ∧ ∀ c ∈ w, P c := by
  have h := foldl_tokenStep_invariant L P hP text ([], []) (by simp) (by simp)
  intro w hw
  simp only [consolidateSequences, flushWord] at hw
  split_ifs at hw with hne
  · rcases List.mem_append.mp hw with hw | hw
    · exact h.2 w hw
    · rw [List.mem_singleton.mp hw]; exact ⟨hne, h.1⟩
  · exact h.2 w hw

/-! ## Tokenizer: separators and dropped characters in a conforming locale -/

theorem isSeparator_cases (c : Nat) (h : isSeparator c = true) :
    c = 0x20 ∨ c = 0x0A ∨ c = 0x22 ∨ c = 0x201C ∨ c = 0x201D := by
  simp only [isSeparator, Bool.or_eq_true, beq_iff_eq] at h
  omega

theorem separator_not_alnum (L : Locale) (hL : L.Conforming) (c : Nat)
    (h : isSeparator c = true) : L.iswalnum c = false := by
  rcases isSeparator_cases c h with e | e | e | e | e
  · rw [e, hL.alnum_ascii _ (by norm_num)]; rfl
  · rw [e, hL.alnum_ascii _ (by norm_num)]; rfl
  · rw [e, hL.alnum_ascii _ (by norm_num)]; rfl
  · rw [e]; exact hL.curly_not_alnum.1
  · rw [e]; exact hL.curly_not_alnum.2

theorem separator_foldChar (L : Locale) (hL : L.Conforming) (c : Nat)
    (h : isSeparator c = true) :
    isWordChar L c = false ∧ (foldChar L c = 0x20 ∨ foldChar L c = 0x0A) := by
  have hlow : L.towlower c = c := hL.towlower_of_not_alnum c (separator_not_alnum L hL c h)
  have h32 : L.iswalnum 0x20 = false := by rw [hL.alnum_ascii _ (by norm_num)]; rfl
  have h10 : L.iswalnum 0x0A = false := by rw [hL.alnum_ascii _ (by norm_num)]; rfl
  have hf : foldChar L c = 0x20 ∨ foldChar L c = 0x0A := by
    unfold foldChar
    rw [hlow]
    rcases isSeparator_cases c h with e | e | e | e | e <;> subst e <;> simp [isDoubleQuote]
  refine ⟨?_, hf⟩
  unfold isWordChar
  rcases hf with e | e <;> rw [e] <;> simp [h32, h10]

theorem dropped_foldChar (L : Locale) (hL : L.Conforming) (p : Nat)
    (hp : p ≤ 127) (hal : L.iswalnum p = false) (h32 : p ≠ 0x20) (h10 : p ≠ 0x0A)
    (h34 : p ≠ 0x22) :
    isWordChar L p = false ∧ foldChar L p ≠ 0x20 ∧ foldChar L p ≠ 0x0A := by
  have hlow : L.towlower p = p := hL.towlower_of_not_alnum p hal
  have hq : isDoubleQuote p = false := by
    simp only [isDoubleQuote, Bool.or_eq_false_iff, beq_eq_false_iff_ne, ne_eq]
    omega
  have hf : foldChar L p = p := by
    unfold foldChar
    rw [hlow, hq]
    simp
  refine ⟨?_, by rw [hf]; exact h32, by rw [hf]; exact h10⟩
  unfold isWordChar
  rw [hf, hal]
  simp
  omega

/-- In a conforming locale a character the loop appends is its own lower-case
form, is alphanumeric or above the 7-bit range, and is none of the three
double quotes. -/
theorem wordChar_foldChar (L : Locale) (hL : L.Conforming) (c0 : Nat)
    (h : isWordChar L c0 = true) :
    L.towlower (foldChar L c0) = foldChar L c0 ∧
      (L.iswalnum (foldChar L c0) = true ∨ foldChar L c0 > 127) ∧
      isDoubleQuote (foldChar L c0) = false := by
  have h32 : L.iswalnum 0x20 = false := by rw [hL.alnum_ascii _ (by norm_num)]; rfl
  unfold isWordChar at h
  by_cases hq : isDoubleQuote (L.towlower c0) = true
  · have hf : foldChar L c0 = 0x20 := by unfold foldChar; rw [if_pos hq]
    rw [hf, h32] at h
    simp at h
  · have hf : foldChar L c0 = L.towlower c0 := by unfold foldChar; rw [if_neg hq]
    rw [hf] at h ⊢
    refine ⟨hL.towlower_idem c0, ?_, by simpa using hq⟩
    simpa using h

/-! ## The key order -/

theorem wstrLt_irrefl (a : WString) : wstrLt a a = false := by
  induction a with
  | nil => rfl
  | cons x xs ih => simp [wstrLt, ih]

theorem wstrLt_trans : ∀ (a b c : WString),
    wstrLt a b = true → wstrLt b c = true → wstrLt a c = true := by
  intro a
  induction a with
  | nil =>
    intro b c hab hbc
    cases b with
    | nil => simp [wstrLt] at hab
    | cons y ys =>
      cases c with
      | nil => simp [wstrLt] at hbc
      | cons z zs => simp [wstrLt]
  | cons x xs ih =>
    intro b c hab hbc
    cases b with
    | nil => simp [wstrLt] at hab
    | cons y ys =>
      cases c with
      | nil => simp [wstrLt] at hbc
      | cons z zs =>
        simp only [wstrLt, Bool.or_eq_true, Bool.and_eq_true, decide_eq_true_eq] at hab hbc ⊢
        rcases hab with hab | ⟨hab, hab'⟩
        · rcases hbc with hbc | ⟨hbc, _⟩
          · exact Or.inl (by omega)
          · exact Or.inl (by omega)
        · rcases hbc with hbc | ⟨hbc, hbc'⟩
          · exact Or.inl (by omega)
          · exact Or.inr ⟨by omega, ih ys zs hab' hbc'⟩

theorem wstrLt_total : ∀ (a b : WString),
    wstrLt a b = false → a ≠ b → wstrLt b a = true := by
  intro a
  induction a with
  | nil =>
    intro b hab hne
    cases b with
    | nil => exact absurd rfl hne
    | cons y ys => simp [wstrLt] at hab
  | cons x xs ih =>
    intro b hab hne
    cases b with
    | nil => simp [wstrLt]
    | cons y ys =>
      simp only [wstrLt, Bool.or_eq_false_iff, Bool.and_eq_false_iff, decide_eq_false_iff_not]
        at hab
      simp only [wstrLt, Bool.or_eq_true, Bool.and_eq_true, decide_eq_true_eq]
      by_cases hxy : x = y
      · subst hxy
        refine Or.inr ⟨rfl, ih ys ?_ ?_⟩
        · rcases hab.2 with h | h
          · exact absurd rfl h
          · exact h
        · intro e; exact hne (by rw [e])
      · exact Or.inl (by omega)

theorem wstrLt_ne (a b : WString) (h : wstrLt a b = true) : a ≠ b := by
  intro e
  rw [e, wstrLt_irrefl] at h
  cases h

/-! ## The table -/

theorem keysAscending_cons (e : Entry) (m : TrigramMap) :
    KeysAscending (e :: m) ↔ (∀ x ∈ m, wstrLt e.1 x.1 = true) ∧ KeysAscending m := by
  simp [KeysAscending, List.pairwise_cons]

/-- A key below every key of the table is absent from it. -/
theorem count_of_lt_all (key : WString) (m : TrigramMap)
    (h : ∀ x ∈ m, wstrLt key x.1 = true) : count m key = 0 := by
  induction m with
  | nil => rfl
  | cons e rest ih =>
    obtain ⟨k, v⟩ := e
    have hk : key ≠ k := wstrLt_ne key k (h (k, v) (List.mem_cons_self _ _))
    simp only [count, if_neg hk]
    exact ih (fun x hx => h x (List.mem_cons_of_mem _ hx))

theorem mem_keys_increment (key : WString) (m : TrigramMap) (k : WString) :
    k ∈ keys (increment key m) ↔ k = key ∨ k ∈ keys m := by
  induction m with
  | nil => simp [increment, keys]
  | cons e rest ih =>
    obtain ⟨k0, v⟩ := e
    simp only [increment]
    split_ifs with h1 h2
    · simp [keys]
    · subst h2
      simp [keys]
    · have ih' := ih
      simp only [keys] at ih' ⊢
      simp only [List.map_cons, List.mem_cons]
      rw [ih']
      tauto

theorem mem_increment_key (key : WString) (m : TrigramMap) (x : Entry)
    (hx : x ∈ increment key m) : x.1 = key ∨ x.1 ∈ keys m := by
  have : x.1 ∈ keys (increment key m) := List.mem_map_of_mem Prod.fst hx
  exact (mem_keys_increment key m x.1).mp this

/-- The statement `trigramMap[sequence]++` keeps the keys ascending. -/
theorem keysAscending_increment (key : WString) (m : TrigramMap) (h : KeysAscending m) :
    KeysAscending (increment key m) := by
  induction m with
  | nil => simp [increment, KeysAscending]
  | cons e rest ih =>
    obtain ⟨k0, v⟩ := e
    rw [keysAscending_cons] at h
    simp only [increment]
    split_ifs with h1 h2
    · rw [keysAscending_cons]
      refine ⟨?_, (keysAscending_cons _ _).mpr h⟩
      intro x hx
      rcases List.mem_cons.mp hx with hx | hx
      · rw [hx]; exact h1
      · exact wstrLt_trans key k0 x.1 h1 (h.1 x hx)
    · rw [keysAscending_cons]
      exact ⟨h.1, h.2⟩
    · rw [keysAscending_cons]
      refine ⟨?_, ih h.2⟩
      intro x hx
      rcases mem_increment_key key rest x hx with e | e
      · rw [e]
        exact wstrLt_total key k0 (by simpa using h1) h2
      · obtain ⟨y, hy, hyx⟩ := List.mem_map.mp e
        rw [← hyx]
        exact h.1 y hy

/-! ## Arithmetic of `int` counters -/

theorem wrapInt_of_fit (x : Int) (h1 : -2147483648 ≤ x) (h2 : x ≤ INT_MAX) : wrapInt x = x := by
  unfold INT_MAX at h2
  unfold wrapInt
  omega

theorem wrapInt_wrapInt_add (x y : Int) : wrapInt (wrapInt x + y) = wrapInt (x + y) := by
  unfold wrapInt
  omega

theorem wrapInt_one : wrapInt (0 + 1) = 1 := by decide

theorem afterIncrements_zero (c : Int) : afterIncrements c 0 = c := by
  simp [afterIncrements]

theorem afterIncrements_one (c : Int) : afterIncrements c 1 = wrapInt (c + 1) := by
  simp [afterIncrements]

theorem afterIncrements_add (c : Int) (i j : Nat) :
    afterIncrements (afterIncrements c i) j = afterIncrements c (i + j) := by
  unfold afterIncrements
  by_cases hi : i = 0
  · subst hi; simp
  · by_cases hj : j = 0
    · subst hj; simp [hi]
    · have hij : ¬ i + j = 0 := by omega
      rw [if_neg hi, if_neg hj, if_neg hij, wrapInt_wrapInt_add]
      push_cast
      rw [add_assoc]

theorem afterIncrements_of_fit (c : Int) (j : Nat) (h1 : -2147483648 ≤ c)
    (h2 : c + j ≤ INT_MAX) : afterIncrements c j = c + j := by
  unfold afterIncrements
  split_ifs with h
  · subst h; simp
  · exact wrapInt_of_fit _ (by omega) h2

/-- The statement `trigramMap[sequence]++` increments the `int` count of the
key and leaves every other count as it is. -/
theorem count_increment (key : WString) (m : TrigramMap) (h : KeysAscending m) (k : WString) :
    count (increment key m) k = afterIncrements (count m k) (if k = key then 1 else 0) := by
  induction m with
  | nil =>
    simp only [increment, count]
    split_ifs with hk
    · rw [afterIncrements_one]
    · rw [afterIncrements_zero]
  | cons e rest ih =>
    obtain ⟨k0, v⟩ := e
    rw [keysAscending_cons] at h
    simp only [increment]
    by_cases hk : k = key
    · subst hk
      simp only [if_true]
      rw [afterIncrements_one]
      by_cases h1 : wstrLt k k0 = true
      · have hz : count ((k0, v) :: rest) k = 0 := by
          apply count_of_lt_all
          intro x hx
          rcases List.mem_cons.mp hx with hx | hx
          · rw [hx]; exact h1
          · exact wstrLt_trans k k0 x.1 h1 (h.1 x hx)
        rw [if_pos h1, hz]
        simp [count]
      · rw [if_neg h1]
        by_cases h2 : k = k0
        · subst h2
          simp [count]
        · rw [if_neg h2]
          have := ih h.2
          simp only [if_true] at this
          rw [afterIncrements_one] at this
          simp only [count, if_neg h2]
          exact this
    · simp only [if_neg hk]
      rw [afterIncrements_zero]
      by_cases h1 : wstrLt key k0 = true
      · rw [if_pos h1]
        simp only [count, if_neg hk]
      · rw [if_neg h1]
        by_cases h2 : key = k0
        · subst h2
          simp only [if_true, count, if_neg hk]
        · rw [if_neg h2]
          have := ih h.2
          simp only [if_neg hk] at this
          rw [afterIncrements_zero] at this
          simp only [count]
          rw [this]

/-! ## The counting loop -/

theorem loopBound_of_ge (n : Nat) (h2 : 2 ≤ n) (hn : n < SIZE_MOD) : loopBound n = n - 2 := by
  unfold loopBound
  unfold SIZE_MOD at hn ⊢
  omega

theorem loopBound_of_lt (n : Nat) (h2 : n < 2) : ∃ r, loopBound n = r + 1 := by
  unfold loopBound SIZE_MOD
  exact ⟨(n + 2 ^ 64 - 2) % 2 ^ 64 - 1, by omega⟩

theorem occurrences_eq (words : List WString) (k : WString) :
    occurrences words k = occurrencesFrom words 0 (words.length - 2) k := by
  simp [occurrences, occurrencesFrom, List.range_eq_range']

theorem occurrencesFrom_succ (words : List WString) (i r : Nat) (k : WString) :
    occurrencesFrom words i (r + 1) k =
      (if trigramAt words i = k then 1 else 0) + occurrencesFrom words (i + 1) r k := by
  simp only [occurrencesFrom, List.range'_succ, List.filter_cons]
  split_ifs with h1 h2 h2
  · simp only [List.length_cons]; omega
  · simp at h1; exact absurd h1 h2
  · simp at h1; exact absurd h2 h1
  · simp

theorem occurrencesFrom_pos (words : List WString) (i r : Nat) (k : WString) :
    0 < occurrencesFrom words i r k ↔ ∃ j, i ≤ j ∧ j < i + r ∧ trigramAt words j = k := by
  simp only [occurrencesFrom, List.length_pos_iff_exists_mem, List.mem_filter,
    List.mem_range'_1, decide_eq_true_eq]
  constructor
  · rintro ⟨j, ⟨h1, h2⟩, h3⟩; exact ⟨j, h1, h2, h3⟩
  · rintro ⟨j, h1, h2, h3⟩; exact ⟨j, ⟨h1, h2⟩, h3⟩

/-- One iteration inside the vector. -/
theorem trigramLoop_succ (words : List WString) (r i : Nat) (m : TrigramMap)
    (h : i + 2 < words.length) :
    trigramLoop words (r + 1) i m =
      trigramLoop words r (i + 1) (increment (trigramAt words i) m) := by
  have h0 : words[i]? = some (words[i]) := List.getElem?_eq_getElem (by omega)
  have h1 : words[i + 1]? = some (words[i + 1]) := List.getElem?_eq_getElem (by omega)
  have h2 : words[i + 2]? = some (words[i + 2]) := List.getElem?_eq_getElem (by omega)
  simp only [trigramLoop, trigramAt, List.getD_eq_getElem?_getD, h0, h1, h2, Option.getD_some]

/-- One iteration that reads outside the vector. -/
theorem trigramLoop_fault (words : List WString) (r i : Nat) (m : TrigramMap)
    (h : words.length ≤ i + 2) : trigramLoop words (r + 1) i m = none := by
  have h2 : words[i + 2]? = none := List.getElem?_eq_none (by omega)
  simp only [trigramLoop, h2]
  split
  · rename_i heq
    cases heq
  · rfl

/-- The loop run inside the vector: it ends, the keys stay ascending, every
count has been incremented once for each window with that key, and the keys of
the result are the old keys and the keys of the windows. -/
theorem trigramLoop_spec (words : List WString) :
    ∀ (r i : Nat) (m : TrigramMap), i + r + 2 ≤ words.length → KeysAscending m →
      ∃ m', trigramLoop words r i m = some m' ∧ KeysAscending m' ∧
        (∀ k, count m' k = afterIncrements (count m k) (occurrencesFrom words i r k)) ∧
        (∀ k, k ∈ keys m' ↔ k ∈ keys m ∨ 0 < occurrencesFrom words i r k) := by
  intro r
  induction r with
  | zero =>
    intro i m _ hm
    refine ⟨m, rfl, hm, ?_, ?_⟩
    · intro k; simp [occurrencesFrom, afterIncrements]
    · intro k; simp [occurrencesFrom]
  | succ r ih =>
    intro i m hlen hm
    obtain ⟨m', hrun, hasc, hcount, hkeys⟩ :=
      ih (i + 1) (increment (trigramAt words i) m) (by omega)
        (keysAscending_increment _ m hm)
    refine ⟨m', ?_, hasc, ?_, ?_⟩
    · rw [trigramLoop_succ words r i m (by omega)]; exact hrun
    · intro k
      rw [hcount k, count_increment _ m hm k, occurrencesFrom_succ, afterIncrements_add]
      have e : (if k = trigramAt words i then 1 else 0)
          = (if trigramAt words i = k then 1 else 0 : Nat) := by
        by_cases hk : k = trigramAt words i
        · simp [hk]
        · have hk' : ¬ trigramAt words i = k := fun e => hk e.symm
          simp [hk, hk']
      rw [e]
    · intro k
      rw [hkeys k, mem_keys_increment, occurrencesFrom_succ]
      by_cases hk : trigramAt words i = k
      · simp [hk]
      · have hk' : ¬ k = trigramAt words i := fun e => hk e.symm
        simp [hk, hk']

/-! ## A stable sorting routine that meets the contract of `std::sort` -/

theorem insertByCount_perm (e : Entry) (l : List Entry) :
    (insertByCount e l).Perm (e :: l) := by
  induction l with
  | nil => exact List.Perm.refl _
  | cons x rest ih =>
    simp only [insertByCount]
    split_ifs
    · exact ((List.Perm.cons x ih).trans (List.Perm.swap e x rest))
    · exact List.Perm.refl _

theorem insertionSort_perm (l : List Entry) : (insertionSort l).Perm l := by
  induction l with
  | nil => exact List.Perm.refl _
  | cons e rest ih =>
    simp only [insertionSort]
    exact (insertByCount_perm e _).trans (List.Perm.cons e ih)

theorem insertByCount_sorted (e : Entry) (l : List Entry)
    (h : l.Pairwise (fun a b => countGreater b a = false)) :
    (insertByCount e l).Pairwise (fun a b => countGreater b a = false) := by
  induction l with
  | nil => simp [insertByCount]
  | cons x rest ih =>
    rw [List.pairwise_cons] at h
    simp only [insertByCount]
    split_ifs with hx
    · rw [List.pairwise_cons]
      refine ⟨?_, ih h.2⟩
      intro y hy
      rcases List.mem_cons.mp ((insertByCount_perm e rest).subset hy) with hy | hy
      · rw [hy]
        simp only [countGreater, decide_eq_true_eq, decide_eq_false_iff_not] at hx ⊢
        omega
      · exact h.1 y hy
    · rw [List.pairwise_cons]
      refine ⟨?_, List.pairwise_cons.mpr h⟩
      intro y hy
      rcases List.mem_cons.mp hy with hy | hy
      · rw [hy]; simpa using hx
      · have hxy := h.1 y hy
        simp only [countGreater, decide_eq_true_eq, decide_eq_false_iff_not] at hx hxy ⊢
        omega

theorem insertionSort_sorted (l : List Entry) :
    (insertionSort l).Pairwise (fun a b => countGreater b a = false) := by
  induction l with
  | nil => simp [insertionSort]
  | cons e rest ih => exact insertByCount_sorted e _ ih

theorem insertionSort_contract : StdSortContract insertionSort :=
  fun l => ⟨insertionSort_perm l, insertionSort_sorted l⟩

theorem insertByCount_filter (e : Entry) (l : List Entry) (c : Int) :
    (insertByCount e l).filter (fun x => decide (x.2 = c)) =
      (e :: l).filter (fun x => decide (x.2 = c)) := by
  induction l with
  | nil => rfl
  | cons x rest ih =>
    simp only [insertByCount]
    split_ifs with hx
    · rw [List.filter_cons, ih]
      simp only [countGreater, decide_eq_true_eq] at hx
      by_cases hxc : x.2 = c
      · have hec : ¬ e.2 = c := by omega
        simp [List.filter_cons, hxc, hec]
      · simp [List.filter_cons, hxc]
    · rfl

theorem insertionSort_stable : StableSort insertionSort := by
  intro l c
  induction l with
  | nil => rfl
  | cons e rest ih =>
    simp only [insertionSort]
    rw [insertByCount_filter, List.filter_cons, List.filter_cons, ih]

/-! ## The report -/

theorem sortTrigrams_sorted (sort : List Entry → List Entry) (hS : StdSortContract sort)
    (m : TrigramMap) :
    (sortTrigrams sort m).Pairwise (fun a b => a.2 ≥ b.2) := by
  have h := ((hS m).2).sublist (List.take_sublist 100 (sort m))
  refine List.Pairwise.imp ?_ h
  intro a b hab
  simp only [countGreater, decide_eq_false_iff_not] at hab
  omega

theorem keys_nodup (m : TrigramMap) (h : KeysAscending m) : (keys m).Nodup := by
  unfold keys KeysAscending at *
  rw [List.Nodup, List.pairwise_map]
  refine List.Pairwise.imp ?_ h
  intro a b hab
  exact wstrLt_ne a.1 b.1 hab

/-- With a stable sort the entries of equal count keep the key order of the
table. -/
theorem sort_tiesAscending (sort : List Entry → List Entry) (hSt : StableSort sort)
    (m : TrigramMap) (hm : KeysAscending m) : TiesAscending (sort m) := by
  unfold TiesAscending
  rw [List.pairwise_iff_forall_sublist]
  intro a b hab heq
  have hf := List.Sublist.filter (fun e : Entry => decide (e.2 = a.2)) hab
  rw [hSt m a.2] at hf
  have hf' : List.Sublist [a, b] m := by
    have : List.filter (fun e : Entry => decide (e.2 = a.2)) [a, b] = [a, b] := by
      simp [List.filter_cons, heq]
    rw [this] at hf
    exact hf.trans (List.filter_sublist m)
  exact (List.pairwise_iff_forall_sublist.mp hm) hf'

/-! ## The counter -/

/-- A text with fewer than two tokens: the bound `words.size() - 2` wraps
around and the first iteration reads outside `words`. -/
theorem generateTrigramMap_fault (L : Locale) (text : WString) (T : TrigramMap)
    (h : (consolidateSequences L text).length < 2) : generateTrigramMap L text T = none := by
  obtain ⟨r, hr⟩ := loopBound_of_lt _ h
  simp only [generateTrigramMap, hr]
  exact trigramLoop_fault _ r 0 T (by omega)

/-- A text with exactly two tokens: the bound is `0` and the table is left as it
is. -/
theorem generateTrigramMap_two_tokens (L : Locale) (text : WString) (T : TrigramMap)
    (h : (consolidateSequences L text).length = 2) : generateTrigramMap L text T = some T := by
  simp only [generateTrigramMap, h]
  rfl

/-- The count of a key is `0` or one of the values of the table. -/
theorem count_ge (m : TrigramMap) (h : CountsInRange m) (k : WString) :
    -2147483648 ≤ count m k := by
  induction m with
  | nil => simp [count]
  | cons e rest ih =>
    obtain ⟨k0, v⟩ := e
    simp only [count]
    split_ifs
    · exact (h (k0, v) (List.mem_cons_self _ _)).1
    · exact ih (fun x hx => h x (List.mem_cons_of_mem _ hx))

theorem occurrencesFrom_le (words : List WString) (k : WString) :
    ∀ (r i : Nat), occurrencesFrom words i r k ≤ r := by
  intro r
  induction r with
  | zero => intro i; simp [occurrencesFrom]
  | succ r ih =>
    intro i
    rw [occurrencesFrom_succ]
    have := ih (i + 1)
    split_ifs <;> omega

theorem occurrences_le (words : List WString) (k : WString) :
    occurrences words k ≤ words.length - 2 := by
  rw [occurrences_eq]
  exact occurrencesFrom_le words k _ 0

/-- C1, as stated, fails: the table `{"a b c": 2147483647}` is a starting table,
the text `"a b c"` has three tokens and one window, of key `"a b c"`, and after
the call the count of that key is `-2147483648`, not `2147483647 + 1`: the
count is an `int`. -/
theorem generateTrigramMap_at_int_max :
    KeysAscending [(wstr "a b c", 2147483647)] ∧
      CountsInRange [(wstr "a b c", 2147483647)] ∧
      (consolidateSequences cLocale (wstr "a b c")).length = 3 ∧
      occurrences (consolidateSequences cLocale (wstr "a b c")) (wstr "a b c") = 1 ∧
      generateTrigramMap cLocale (wstr "a b c") [(wstr "a b c", 2147483647)] =
        some [(wstr "a b c", -2147483648)] ∧
      count [(wstr "a b c", -2147483648)] (wstr "a b c") ≠
        count [(wstr "a b c", 2147483647)] (wstr "a b c") + 1 :=
  ⟨by decide, by decide, by decide, by decide, by decide, by decide⟩

/-- C1, amended: for a text whose token sequence `w` has length `n ≥ 3` (a
length that fits `size_t`) and every table `T` in which no count passes
`INT_MAX` once the windows are counted (count in `T` plus the number of windows
with that key is at most `2147483647`), `generateTrigramMap` ends with a table
in which the count of every key `k` is its count in `T` (`0` if absent) plus the
number of indices `i` in `[0, n - 3]` whose window `w[i] w[i+1] w[i+2]` has the
key `k`; the keys of the result are the keys of `T` and the trigram keys of `w`,
so a key that is no trigram of `w` keeps its count and no other key is
inserted. -/
theorem generateTrigramMap_counts (L : Locale) (text : WString) (T : TrigramMap)
    (hT : KeysAscending T) (hInt : CountsInRange T)
    (hn : 3 ≤ (consolidateSequences L text).length)
    (hsize : (consolidateSequences L text).length < SIZE_MOD)
    (hfit : ∀ k, count T k + (occurrences (consolidateSequences L text) k : Int) ≤ INT_MAX) :
    ∃ T', generateTrigramMap L text T = some T' ∧ KeysAscending T' ∧
      (∀ k, count T' k = count T k + (occurrences (consolidateSequences L text) k : Int)) ∧
      (∀ k, k ∈ keys T' ↔ k ∈ keys T ∨ 0 < occurrences (consolidateSequences L text) k) ∧
      (∀ k, occurrences (consolidateSequences L text) k = 0 →
        count T' k = count T k ∧ (k ∈ keys T' ↔ k ∈ keys T)) := by
  obtain ⟨T', hrun, hasc, hcount, hkeys⟩ :=
    trigramLoop_spec (consolidateSequences L text) ((consolidateSequences L text).length - 2) 0 T
      (by omega) hT
  have hcount' : ∀ k,
      count T' k = count T k + (occurrences (consolidateSequences L text) k : Int) := by
    intro k
    rw [hcount k, ← occurrences_eq]
    exact afterIncrements_of_fit _ _ (count_ge T hInt k) (hfit k)
  refine ⟨T', ?_, hasc, hcount', ?_, ?_⟩
  · simp only [generateTrigramMap]
    rw [loopBound_of_ge _ (by omega) hsize]
    exact hrun
  · intro k; rw [occurrences_eq]; exact hkeys k
  · intro k hk
    refine ⟨by rw [hcount' k, hk]; simp, ?_⟩
    rw [occurrences_eq] at hk
    rw [hkeys k, hk]
    simp

theorem generateTrigramMap_counts_witness :
    ∃ T', generateTrigramMap cLocale (wstr "a b c a b") [(wstr "a b c", 5)] = some T' ∧
      KeysAscending T' ∧
      (∀ k, count T' k = count [(wstr "a b c", 5)] k +
        (occurrences (consolidateSequences cLocale (wstr "a b c a b")) k : Int)) ∧
      (∀ k, k ∈ keys T' ↔ k ∈ keys [(wstr "a b c", 5)] ∨
        0 < occurrences (consolidateSequences cLocale (wstr "a b c a b")) k) ∧
      (∀ k, occurrences (consolidateSequences cLocale (wstr "a b c a b")) k = 0 →
        count T' k = count [(wstr "a b c", 5)] k ∧
          (k ∈ keys T' ↔ k ∈ keys [(wstr "a b c", 5)])) :=
  generateTrigramMap_counts cLocale (wstr "a b c a b") [(wstr "a b c", 5)]
    (by decide) (by decide) (by decide) (by decide)
    (by
      intro k
      have h1 := occurrences_le (consolidateSequences cLocale (wstr "a b c a b")) k
      have h2 : (consolidateSequences cLocale (wstr "a b c a b")).length = 5 := by decide
      have h3 : count [(wstr "a b c", 5)] k ≤ 5 := by
        simp only [count]
        split_ifs <;> omega
      unfold INT_MAX
      omega)

/-- C2: on the empty text (no token) `generateTrigramMap` does not leave the
table unchanged: in every locale and for every table the wrapped-around bound
`words.size() - 2` lets the loop body run and read outside `words`. -/
theorem generateTrigramMap_empty_text (L : Locale) (T : TrigramMap) :
    loopBound (consolidateSequences L []).length = 2 ^ 64 - 2 ∧
      generateTrigramMap L [] T = none := by
  have h : consolidateSequences L [] = [] := rfl
  refine ⟨by rw [h]; decide, ?_⟩
  exact generateTrigramMap_fault L [] T (by rw [h]; decide)

/-! ## The ranker -/

/-- C3: for every frequency table the report of `sortTrigrams` is sorted by
count non-increasing: for all positions `i < j` of the report,
`count[i] ≥ count[j]`. -/
theorem sortTrigrams_nonincreasing (sort : List Entry → List Entry)
    (hS : StdSortContract sort) (T : TrigramMap) (i j : Nat) (a b : Entry)
    (hij : i < j) (ha : (sortTrigrams sort T)[i]? = some a)
    (hb : (sortTrigrams sort T)[j]? = some b) : a.2 ≥ b.2 := by
  obtain ⟨hi, rfl⟩ := List.getElem?_eq_some.mp ha
  obtain ⟨hj, rfl⟩ := List.getElem?_eq_some.mp hb
  exact (List.pairwise_iff_getElem.mp (sortTrigrams_sorted sort hS T)) i j hi hj hij

theorem sortTrigrams_nonincreasing_witness :
    StdSortContract insertionSort ∧ (wstr "c", (3 : Int)).2 ≥ (wstr "a", (1 : Int)).2 :=
  ⟨insertionSort_contract,
    sortTrigrams_nonincreasing insertionSort insertionSort_contract
      [(wstr "a", 1), (wstr "b", 2), (wstr "c", 3)] 0 2 (wstr "c", 3) (wstr "a", 1)
      (by decide) (by decide) (by decide)⟩

/-- With a stable sorting routine, any two entries of the report of
`sortTrigrams` that have equal counts appear in ascending key order. -/
theorem sortTrigrams_ties_of_stable (sort : List Entry → List Entry)
    (hSt : StableSort sort) (T : TrigramMap) (hT : KeysAscending T) (i j : Nat)
    (a b : Entry) (hij : i < j) (ha : (sortTrigrams sort T)[i]? = some a)
    (hb : (sortTrigrams sort T)[j]? = some b) (hab : a.2 = b.2) :
    wstrLt a.1 b.1 = true := by
  have hties : TiesAscending (sortTrigrams sort T) :=
    (sort_tiesAscending sort hSt T hT).sublist (List.take_sublist 100 (sort T))
  obtain ⟨hi, rfl⟩ := List.getElem?_eq_some.mp ha
  obtain ⟨hj, rfl⟩ := List.getElem?_eq_some.mp hb
  exact (List.pairwise_iff_getElem.mp hties) i j hi hj hij hab

theorem sortTrigrams_ties_of_stable_witness :
    StableSort insertionSort ∧ wstrLt (wstr "a b c") (wstr "b c a") = true :=
  ⟨insertionSort_stable,
    sortTrigrams_ties_of_stable insertionSort insertionSort_stable
      [(wstr "a b c", 1), (wstr "b c a", 1), (wstr "c a b", 4)] (by decide) 1 2
      (wstr "a b c", 1) (wstr "b c a", 1) (by decide) (by decide) (by decide) rfl⟩

/-! ## The order of equal counts under the `std::sort` of libstdc++ -/

theorem introsortLoop_small (depth : Nat) (a : List Entry) (first last : Nat)
    (h : last - first ≤ S_threshold) : introsortLoop depth a first last = a := by
  have h' : ¬ last - first > S_threshold := by omega
  cases depth with
  | zero => simp only [introsortLoop, if_neg h']
  | succ d => simp only [introsortLoop, if_neg h']

/-- A range of at most 16 elements is sorted by `__insertion_sort` alone. -/
theorem stdSort_small (a : List Entry) (h : a.length ≤ 16) : stdSort a = stdInsertionSort a := by
  unfold stdSort
  split_ifs with hnil
  · rw [hnil]; rfl
  · rw [introsortLoop_small _ a 0 a.length (by simpa [S_threshold] using h)]
    simp only [finalInsertionSort]
    rw [if_neg (by simpa [S_threshold] using h)]

theorem mem_unguardedLinearInsert (val : Entry) (l : List Entry) (y : Entry)
    (h : y ∈ unguardedLinearInsert val l) : y = val ∨ y ∈ l := by
  induction l with
  | nil => simp only [unguardedLinearInsert, List.mem_singleton] at h; exact Or.inl h
  | cons x before ih =>
    simp only [unguardedLinearInsert] at h
    split_ifs at h
    · rcases List.mem_cons.mp h with h | h
      · exact Or.inr (by rw [h]; exact List.mem_cons_self _ _)
      · rcases ih h with h | h
        · exact Or.inl h
        · exact Or.inr (List.mem_cons_of_mem _ h)
    · rcases List.mem_cons.mp h with h | h
      · exact Or.inl h
      · exact Or.inr h

/-- The insertion keeps a range ordered; the list runs from the nearest element
backwards, so the counts do not decrease along it. -/
theorem unguardedLinearInsert_sorted (val : Entry) (l : List Entry)
    (h : l.Pairwise (fun a b => countGreater a b = false)) :
    (unguardedLinearInsert val l).Pairwise (fun a b => countGreater a b = false) := by
  induction l with
  | nil => simp [unguardedLinearInsert]
  | cons x before ih =>
    rw [List.pairwise_cons] at h
    simp only [unguardedLinearInsert]
    split_ifs with hx
    · rw [List.pairwise_cons]
      refine ⟨?_, ih h.2⟩
      intro y hy
      rcases mem_unguardedLinearInsert val before y hy with e | e
      · rw [e]
        simp only [countGreater, decide_eq_true_eq, decide_eq_false_iff_not] at hx ⊢
        omega
      · exact h.1 y e
    · rw [List.pairwise_cons]
      refine ⟨?_, List.pairwise_cons.mpr h⟩
      intro y hy
      rcases List.mem_cons.mp hy with e | e
      · rw [e]; simpa using hx
      · have hxy := h.1 y e
        simp only [countGreater, decide_eq_true_eq, decide_eq_false_iff_not] at hx hxy ⊢
        omega

/-- The insertion moves the value past elements of smaller count only. -/
theorem unguardedLinearInsert_filter (val : Entry) (l : List Entry) (c : Int) :
    (unguardedLinearInsert val l).filter (fun e => decide (e.2 = c)) =
      (val :: l).filter (fun e => decide (e.2 = c)) := by
  induction l with
  | nil => rfl
  | cons x before ih =>
    simp only [unguardedLinearInsert]
    split_ifs with hx
    · rw [List.filter_cons, ih]
      simp only [countGreater, decide_eq_true_eq] at hx
      by_cases hxc : x.2 = c
      · have hvc : ¬ val.2 = c := by omega
        simp [List.filter_cons, hxc, hvc]
      · simp [List.filter_cons, hxc]
    · rfl

theorem insertionSortStep_sorted (sorted : List Entry) (val : Entry)
    (h : sorted.Pairwise (fun a b => countGreater b a = false)) :
    (insertionSortStep sorted val).Pairwise (fun a b => countGreater b a = false) := by
  cases sorted with
  | nil => simp [insertionSortStep]
  | cons f rest =>
    simp only [insertionSortStep]
    split_ifs with hf
    · rw [List.pairwise_cons]
      refine ⟨?_, h⟩
      intro y hy
      rw [List.pairwise_cons] at h
      simp only [countGreater, decide_eq_true_eq, decide_eq_false_iff_not] at hf ⊢
      rcases List.mem_cons.mp hy with e | e
      · rw [e]; omega
      · have := h.1 y e
        simp only [countGreater, decide_eq_false_iff_not] at this
        omega
    · rw [List.pairwise_reverse]
      apply unguardedLinearInsert_sorted
      rw [List.pairwise_reverse]
      exact h

theorem insertionSortStep_filter (sorted : List Entry) (val : Entry) (c : Int)
    (h : sorted.Pairwise (fun a b => countGreater b a = false)) :
    (insertionSortStep sorted val).filter (fun e => decide (e.2 = c)) =
      (sorted ++ [val]).filter (fun e => decide (e.2 = c)) := by
  cases sorted with
  | nil => simp [insertionSortStep]
  | cons f rest =>
    simp only [insertionSortStep]
    split_ifs with hf
    · rw [List.pairwise_cons] at h
      simp only [countGreater, decide_eq_true_eq] at hf
      by_cases hvc : val.2 = c
      · have hnone : (f :: rest).filter (fun e => decide (e.2 = c)) = [] := by
          rw [List.filter_eq_nil_iff]
          intro y hy
          simp only [decide_eq_true_eq]
          rcases List.mem_cons.mp hy with e | e
          · rw [e]; omega
          · have := h.1 y e
            simp only [countGreater, decide_eq_false_iff_not] at this
            omega
        rw [List.filter_append, List.filter_cons, hnone]
        simp [List.filter_cons, hvc]
      · rw [List.filter_append, List.filter_cons]
        simp [List.filter_cons, hvc]
    · rw [List.filter_reverse, unguardedLinearInsert_filter, List.filter_cons, List.filter_reverse,
        List.filter_append]
      by_cases hvc : val.2 = c
      · simp [List.filter_cons, hvc]
      · simp [List.filter_cons, hvc]

theorem foldl_insertionSortStep (rest : List Entry) :
    ∀ (sorted done : List Entry),
      sorted.Pairwise (fun a b => countGreater b a = false) →
      (∀ c : Int, sorted.filter (fun e => decide (e.2 = c)) =
        done.filter (fun e => decide (e.2 = c))) →
      ∀ c : Int, (rest.foldl insertionSortStep sorted).filter (fun e => decide (e.2 = c)) =
        (done ++ rest).filter (fun e => decide (e.2 = c)) := by
  induction rest with
  | nil => intro sorted done _ h c; simpa using h c
  | cons val rest ih =>
    intro sorted done hs h c
    simp only [List.foldl_cons]
    rw [show done ++ val :: rest = (done ++ [val]) ++ rest by simp]
    apply ih _ _ (insertionSortStep_sorted sorted val hs)
    intro c'
    rw [insertionSortStep_filter sorted val c' hs, List.filter_append, List.filter_append, h c']

/-- The function `__insertion_sort` keeps the elements of each count in their
order. -/
theorem stdInsertionSort_filter (a : List Entry) (c : Int) :
    (stdInsertionSort a).filter (fun e => decide (e.2 = c)) =
      a.filter (fun e => decide (e.2 = c)) := by
  cases a with
  | nil => rfl
  | cons x rest =>
    simp only [stdInsertionSort]
    exact foldl_insertionSortStep rest [x] [x] (by simp) (fun _ => rfl) c

/-- A rearrangement of a table that keeps the entries of each count in their
order has the entries of equal count in ascending key order. -/
theorem tiesAscending_of_filter (m out : List Entry) (hm : KeysAscending m)
    (h : ∀ c : Int, out.filter (fun e => decide (e.2 = c)) =
      m.filter (fun e => decide (e.2 = c))) : TiesAscending out := by
  unfold TiesAscending
  rw [List.pairwise_iff_forall_sublist]
  intro a b hab heq
  have hf := List.Sublist.filter (fun e : Entry => decide (e.2 = a.2)) hab
  rw [h a.2] at hf
  have hf' : List.Sublist [a, b] m := by
    have : List.filter (fun e : Entry => decide (e.2 = a.2)) [a, b] = [a, b] := by
      simp [List.filter_cons, heq]
    rw [this] at hf
    exact hf.trans (List.filter_sublist m)
  exact (List.pairwise_iff_forall_sublist.mp hm) hf'

/-- C4, as stated, fails: the text `a b c ... s` of 19 words gives a table of 17
keys, each of count 1, and the report of `sortTrigrams` with the `std::sort` of
libstdc++ starts with `"i j k"`, the ninth key, ten lines before `"a b c"`: the
partitioning step of the sort has moved entries of equal count out of key
order. -/
theorem sortTrigrams_seventeen_ties :
    generateTrigramMap cLocale (wstr "a b c d e f g h i j k l m n o p q r s") [] =
        some (["a b c", "b c d", "c d e", "d e f", "e f g", "f g h", "g h i", "h i j", "i j k",
          "j k l", "k l m", "l m n", "m n o", "n o p", "o p q", "p q r", "q r s"].map
            (fun k => (wstr k, 1))) ∧
      sortTrigrams stdSort
          (["a b c", "b c d", "c d e", "d e f", "e f g", "f g h", "g h i", "h i j", "i j k",
            "j k l", "k l m", "l m n", "m n o", "n o p", "o p q", "p q r", "q r s"].map
              (fun k => (wstr k, 1))) =
        ["i j k", "q r s", "p q r", "o p q", "n o p", "m n o", "l m n", "k l m", "j k l",
          "a b c", "h i j", "g h i", "f g h", "e f g", "d e f", "c d e", "b c d"].map
            (fun k => (wstr k, 1)) ∧
      wstrLt (wstr "i j k") (wstr "a b c") = false := by
  refine ⟨?_, ?_, ?_⟩
  · decide
  · decide
  · decide

/-- C4, amended: for every frequency table of at most 16 entries, any two
entries of the report of `sortTrigrams` that have equal counts appear in
ascending key order: the `std::sort` of libstdc++ sorts such a range by
insertion, which keeps the key order of the map among equal counts. -/
theorem sortTrigrams_ties_small (T : TrigramMap) (hT : KeysAscending T) (hlen : T.length ≤ 16)
    (i j : Nat) (a b : Entry) (hij : i < j)
    (ha : (sortTrigrams stdSort T)[i]? = some a) (hb : (sortTrigrams stdSort T)[j]? = some b)
    (hab : a.2 = b.2) : wstrLt a.1 b.1 = true := by
  have hsort : TiesAscending (stdSort T) :=
    tiesAscending_of_filter T (stdSort T) hT
      (fun c => by rw [stdSort_small T hlen]; exact stdInsertionSort_filter T c)
  have hties : TiesAscending (sortTrigrams stdSort T) :=
    hsort.sublist (List.take_sublist 100 (stdSort T))
  obtain ⟨hi, rfl⟩ := List.getElem?_eq_some.mp ha
  obtain ⟨hj, rfl⟩ := List.getElem?_eq_some.mp hb
  exact (List.pairwise_iff_getElem.mp hties) i j hi hj hij hab

theorem sortTrigrams_ties_small_witness :
    wstrLt (wstr "a b c") (wstr "c a b") = true :=
  sortTrigrams_ties_small
    [(wstr "a b c", 1), (wstr "b c a", 2), (wstr "c a b", 1)] (by decide) (by decide) 1 2
    (wstr "a b c", 1) (wstr "c a b", 1) (by decide) (by decide) (by decide) rfl

/-- C5: for every frequency table with `m` entries `sortTrigrams` emits exactly
`min m 100` entries; the report never has more than 100 entries and the empty
table gives the empty report. -/
theorem sortTrigrams_length (sort : List Entry → List Entry) (hS : StdSortContract sort)
    (T : TrigramMap) :
    (sortTrigrams sort T).length = min T.length 100 ∧
      (sortTrigrams sort T).length ≤ 100 ∧ sortTrigrams sort [] = [] := by
  have hlen : (sortTrigrams sort T).length = min T.length 100 := by
    simp only [sortTrigrams, List.length_take, (hS T).1.length_eq]
    exact Nat.min_comm _ _
  refine ⟨hlen, by omega, ?_⟩
  simp only [sortTrigrams, List.Perm.eq_nil (hS []).1, List.take_nil]

theorem sortTrigrams_length_witness :
    (sortTrigrams insertionSort [(wstr "a", 1), (wstr "b", 2)]).length
        = min [(wstr "a", (1 : Int)), (wstr "b", 2)].length 100 ∧
      (sortTrigrams insertionSort [(wstr "a", 1), (wstr "b", 2)]).length ≤ 100 ∧
      sortTrigrams insertionSort [] = [] :=
  sortTrigrams_length insertionSort insertionSort_contract [(wstr "a", 1), (wstr "b", 2)]

/-- C6: for every frequency table the report of `sortTrigrams` consists of the
most frequent entries: every emitted pair is an entry of the table, no key is
emitted twice, and every entry of the table that is not emitted has a count
less than or equal to the count of every emitted entry. -/
theorem sortTrigrams_most_frequent (sort : List Entry → List Entry)
    (hS : StdSortContract sort) (T : TrigramMap) (hT : KeysAscending T) :
    (∀ e ∈ sortTrigrams sort T, e ∈ T) ∧
      (keys (sortTrigrams sort T)).Nodup ∧
      (∀ e ∈ T, e ∉ sortTrigrams sort T → ∀ r ∈ sortTrigrams sort T, e.2 ≤ r.2) := by
  have hsub : List.Sublist (sortTrigrams sort T) (sort T) := List.take_sublist 100 (sort T)
  refine ⟨?_, ?_, ?_⟩
  · intro e he
    exact (hS T).1.subset (hsub.subset he)
  · have hnd : (keys (sort T)).Nodup :=
      (List.Perm.nodup_iff ((hS T).1.map Prod.fst)).mpr (keys_nodup T hT)
    exact hnd.sublist (hsub.map Prod.fst)
  · intro e he hne r hr
    have hsplit : sort T = List.take 100 (sort T) ++ List.drop 100 (sort T) :=
      (List.take_append_drop 100 (sort T)).symm
    have hmem : e ∈ List.take 100 (sort T) ++ List.drop 100 (sort T) := by
      rw [← hsplit]; exact (hS T).1.symm.subset he
    have hdrop : e ∈ List.drop 100 (sort T) := by
      rcases List.mem_append.mp hmem with h | h
      · exact absurd h hne
      · exact h
    have hpw := (hS T).2
    rw [hsplit, List.pairwise_append] at hpw
    have := hpw.2.2 r hr e hdrop
    simp only [countGreater, decide_eq_false_iff_not] at this
    omega

theorem sortTrigrams_most_frequent_witness :
    (∀ e ∈ sortTrigrams insertionSort [(wstr "a", 1), (wstr "b", 2)],
        e ∈ [(wstr "a", (1 : Int)), (wstr "b", 2)]) ∧
      (keys (sortTrigrams insertionSort [(wstr "a", 1), (wstr "b", 2)])).Nodup ∧
      (∀ e ∈ [(wstr "a", (1 : Int)), (wstr "b", 2)],
        e ∉ sortTrigrams insertionSort [(wstr "a", 1), (wstr "b", 2)] →
        ∀ r ∈ sortTrigrams insertionSort [(wstr "a", 1), (wstr "b", 2)], e.2 ≤ r.2) :=
  sortTrigrams_most_frequent insertionSort insertionSort_contract
    [(wstr "a", 1), (wstr "b", 2)] (by decide)

/-! ## The scenario `"a b c a b c a b"` -/

/-- C8, as stated, fails: the text `don’t`, an em space (U+2003), `stop` is one
token that keeps the right single quotation mark U+2019 and the space U+2003:
code points above 127 are word content whatever their class. -/
theorem token_keeps_wide_space_and_quote :
    cLocale.Conforming ∧
      consolidateSequences cLocale (wstr "don" ++ [0x2019] ++ wstr "t" ++ [0x2003] ++ wstr "stop")
        = [wstr "don" ++ [0x2019] ++ wstr "t" ++ [0x2003] ++ wstr "stop"] ∧
      0x2019 ∈ wstr "don" ++ [0x2019] ++ wstr "t" ++ [0x2003] ++ wstr "stop" ∧
      isQuotationMark 0x2019 = true ∧
      0x2003 ∈ wstr "don" ++ [0x2019] ++ wstr "t" ++ [0x2003] ++ wstr "stop" ∧
      isWhitespace 0x2003 = true :=
  ⟨cLocale_conforming, by decide, by decide, by decide, by decide, by decide⟩

/-- C8, amended: for every input text, every token returned by
`consolidateSequences` is lower-case (each of its characters is unchanged by
`towlower`) and contains no white space and no quotation mark of the 7-bit
range, neither curly double quote, and no ASCII punctuation. -/
theorem tokens_lowercase_clean (L : Locale) (hL : L.Conforming) (text : WString) :
    ∀ w ∈ consolidateSequences L text, ∀ c ∈ w,
      L.towlower c = c ∧ (c ≤ 127 → isWhitespace c = false) ∧
        (c ≤ 127 → isQuotationMark c = false) ∧ isDoubleQuote c = false ∧
        isAsciiPunct c = false := by
  intro w hw c hc
  obtain ⟨hlow, hword, hq⟩ :=
    (tokens_invariant L
      (fun c => L.towlower c = c ∧ (L.iswalnum c = true ∨ c > 127) ∧ isDoubleQuote c = false)
      (fun c0 h => wordChar_foldChar L hL c0 h) text w hw).2 c hc
  have hal : c ≤ 127 → isAsciiAlnum c = true := by
    intro h127
    rcases hword with h | h
    · rw [← hL.alnum_ascii c h127]; exact h
    · omega
  refine ⟨hlow, ?_, ?_, hq, ?_⟩
  · intro h127
    have := hal h127
    simp only [isAsciiAlnum, Bool.or_eq_true, Bool.and_eq_true, decide_eq_true_eq] at this
    simp only [isWhitespace, Bool.or_eq_false_iff, Bool.and_eq_false_iff,
      decide_eq_false_iff_not, beq_eq_false_iff_ne, ne_eq]
    omega
  · intro h127
    have := hal h127
    simp only [isAsciiAlnum, Bool.or_eq_true, Bool.and_eq_true, decide_eq_true_eq] at this
    simp only [isQuotationMark, Bool.or_eq_false_iff, Bool.and_eq_false_iff,
      decide_eq_false_iff_not, beq_eq_false_iff_ne, ne_eq]
    omega
  · by_cases h127 : c ≤ 127
    · have := hal h127
      simp only [isAsciiAlnum, Bool.or_eq_true, Bool.and_eq_true, decide_eq_true_eq] at this
      simp only [isAsciiPunct, Bool.or_eq_false_iff, Bool.and_eq_false_iff,
        decide_eq_false_iff_not]
      omega
    · simp only [isAsciiPunct, Bool.or_eq_false_iff, Bool.and_eq_false_iff,
        decide_eq_false_iff_not]
      omega

theorem tokens_lowercase_clean_witness :
    wstr "love" ∈ consolidateSequences cLocale (wstr "\"I LOVE\nsandwiches?\"") ∧
      cLocale.towlower 108 = 108 ∧ isWhitespace 108 = false ∧ isQuotationMark 108 = false ∧
      isDoubleQuote 108 = false ∧ isAsciiPunct 108 = false :=
  have h := tokens_lowercase_clean cLocale cLocale_conforming
    (wstr "\"I LOVE\nsandwiches?\"") (wstr "love") (by decide) 108 (by decide)
  ⟨by decide, h.1, h.2.1 (by decide), h.2.2.1 (by decide), h.2.2.2.1, h.2.2.2.2⟩

/-- No token is empty. -/
theorem tokens_nonempty (L : Locale) (text : WString) :
    [] ∉ consolidateSequences L text := by
  intro h
  exact (tokens_invariant L (fun _ => True) (fun _ _ => trivial) text [] h).1 rfl

/-- C9: separators split and collapse. For all texts `a` and `b` and every
non-empty run `s` of spaces, newlines and straight or curly double quotes, the
tokens of `a ++ s ++ b` are the tokens of `a` followed by the tokens of `b`; so
the run yields the same tokens as a single space, and never an empty token. -/
theorem consolidateSequences_separators (L : Locale) (hL : L.Conforming)
    (a s b : WString) (hs : s ≠ []) (hsep : ∀ c ∈ s, isSeparator c = true) :
    consolidateSequences L (a ++ s ++ b) =
        consolidateSequences L a ++ consolidateSequences L b ∧
      consolidateSequences L (a ++ s ++ b) = consolidateSequences L (a ++ [0x20] ++ b) ∧
      [] ∉ consolidateSequences L (a ++ s ++ b) := by
  have key : ∀ s : WString, s ≠ [] → (∀ c ∈ s, isSeparator c = true) →
      consolidateSequences L (a ++ s ++ b) =
        consolidateSequences L a ++ consolidateSequences L b := by
    intro s hs hsep
    rw [List.append_assoc, consolidateSequences_append, List.foldl_append,
      foldl_separators L s (fun c hc => separator_foldChar L hL c (hsep c hc)) _ hs,
      flushWord_foldl]
    rfl
  refine ⟨key s hs hsep, ?_, tokens_nonempty L _⟩
  rw [key s hs hsep, key [0x20] (by simp) (by intro c hc; rw [List.mem_singleton.mp hc]; rfl)]

theorem consolidateSequences_separators_witness :
    consolidateSequences cLocale (wstr "I love" ++ wstr "\"\n  " ++ wstr "sandwiches") =
        consolidateSequences cLocale (wstr "I love") ++
          consolidateSequences cLocale (wstr "sandwiches") ∧
      consolidateSequences cLocale (wstr "I love" ++ wstr "\"\n  " ++ wstr "sandwiches") =
        consolidateSequences cLocale (wstr "I love" ++ [0x20] ++ wstr "sandwiches") ∧
      [] ∉ consolidateSequences cLocale (wstr "I love" ++ wstr "\"\n  " ++ wstr "sandwiches") :=
  consolidateSequences_separators cLocale cLocale_conforming (wstr "I love") (wstr "\"\n  ")
    (wstr "sandwiches") (by decide) (by decide)

/-- C10: dropped characters are invisible and force no boundary. For all texts
`a` and `b` and every character `p` of the 7-bit range that is not
alphanumeric, not a space, not a newline and not a straight double quote, the
tokens of `a ++ [p] ++ b` are the tokens of `a ++ b`; so such a character
between two word characters leaves them in one token. -/
theorem consolidateSequences_dropped (L : Locale) (hL : L.Conforming)
    (a b : WString) (p : Nat) (hp : p ≤ 127) (hal : L.iswalnum p = false)
    (h32 : p ≠ 0x20) (h10 : p ≠ 0x0A) (h34 : p ≠ 0x22) :
    consolidateSequences L (a ++ [p] ++ b) = consolidateSequences L (a ++ b) ∧
      (∀ x y, isWordChar L x = true → isWordChar L y = true →
        consolidateSequences L ([x] ++ [p] ++ [y]) = [[foldChar L x, foldChar L y]]) := by
  obtain ⟨hw, h1, h2⟩ := dropped_foldChar L hL p hp hal h32 h10 h34
  refine ⟨?_, ?_⟩
  · rw [List.append_assoc, consolidateSequences_append, consolidateSequences_append]
    exact congrArg flushWord (foldl_dropped L p b _ hw h1 h2)
  · intro x y hx hy
    simp only [consolidateSequences, List.singleton_append, List.cons_append, List.nil_append,
      List.foldl_cons, List.foldl_nil]
    rw [tokenStep_word L _ x hx, tokenStep_dropped L _ p hw h1 h2, tokenStep_word L _ y hy]
    simp [flushWord]

theorem consolidateSequences_dropped_witness :
    consolidateSequences cLocale (wstr "well" ++ [45] ++ wstr "known fact") =
        consolidateSequences cLocale (wstr "well" ++ wstr "known fact") ∧
      (∀ x y, isWordChar cLocale x = true → isWordChar cLocale y = true →
        consolidateSequences cLocale ([x] ++ [45] ++ [y]) =
          [[foldChar cLocale x, foldChar cLocale y]]) :=
  consolidateSequences_dropped cLocale cLocale_conforming (wstr "well") (wstr "known fact") 45
    (by decide) (by decide) (by decide) (by decide) (by decide)

/-! ## Tokenizer: case folding and runs of word characters -/

/-- The loop body sees its input character through `towlower` only. -/
theorem tokenStep_congr (L : Locale) (st : WString × List WString) (c d : Nat)
    (h : L.towlower c = L.towlower d) : tokenStep L st c = tokenStep L st d := by
  simp only [tokenStep, h]

theorem foldl_tokenStep_map (L : Locale) (f : Nat → Nat) (t : WString)
    (h : ∀ c ∈ t, L.towlower (f c) = L.towlower c) :
    ∀ st : WString × List WString,
      (t.map f).foldl (tokenStep L) st = t.foldl (tokenStep L) st := by
  induction t with
  | nil => intro st; rfl
  | cons c t ih =>
    intro st
    simp only [List.map_cons, List.foldl_cons]
    rw [tokenStep_congr L st (f c) c (h c (List.mem_cons_self c t)),
      ih (fun d hd => h d (List.mem_cons_of_mem _ hd))]

theorem consolidateSequences_map (L : Locale) (f : Nat → Nat) (t : WString)
    (h : ∀ c ∈ t, L.towlower (f c) = L.towlower c) :
    consolidateSequences L (t.map f) = consolidateSequences L t := by
  simp only [consolidateSequences, foldl_tokenStep_map L f t h]

/-- A run of word characters extends the pending word and pushes nothing. -/
theorem foldl_wordChars (L : Locale) (t : WString)
    (h : ∀ c ∈ t, isWordChar L c = true) :
    ∀ (w : WString) (ws : List WString),
      t.foldl (tokenStep L) (w, ws) = (w ++ t.map (foldChar L), ws) := by
  induction t with
  | nil => intro w ws; simp
  | cons c t ih =>
    intro w ws
    simp only [List.foldl_cons, List.map_cons]
    rw [tokenStep_word L (w, ws) c (h c (List.mem_cons_self c t)),
      ih (fun d hd => h d (List.mem_cons_of_mem _ hd))]
    simp

/-- A character that is appended is appended in its lower-case form. -/
theorem wordChar_foldChar_eq (L : Locale) (hL : L.Conforming) (c0 : Nat)
    (h : isWordChar L c0 = true) : foldChar L c0 = L.towlower c0 := by
  have h32 : L.iswalnum 0x20 = false := by rw [hL.alnum_ascii _ (by norm_num)]; rfl
  unfold isWordChar at h
  by_cases hq : isDoubleQuote (L.towlower c0) = true
  · have hf : foldChar L c0 = 0x20 := by unfold foldChar; rw [if_pos hq]
    rw [hf, h32] at h
    simp at h
  · unfold foldChar; rw [if_neg hq]

/-- In a conforming locale the lower-case form of a character that is not a
double quote is not a double quote. -/
theorem towlower_not_quote (L : Locale) (hL : L.Conforming) (c : Nat)
    (hc : isDoubleQuote c = false) : isDoubleQuote (L.towlower c) = false := by
  by_cases hal : L.iswalnum c = true
  · have hlow := hL.alnum_towlower c hal
    by_contra hq
    have hq' : isDoubleQuote (L.towlower c) = true := by simpa using hq
    have hsep : isSeparator (L.towlower c) = true := by
      simp only [isDoubleQuote, Bool.or_eq_true, beq_iff_eq] at hq'
      simp only [isSeparator, Bool.or_eq_true, beq_iff_eq]
      omega
    rw [separator_not_alnum L hL _ hsep] at hlow
    cases hlow
  · have hal' : L.iswalnum c = false := by simpa using hal
    rw [hL.towlower_of_not_alnum c hal']
    exact hc

/-! ## Tokenizer: when there is no token -/

theorem flushWord_eq_nil (st : WString × List WString) :
    flushWord st = [] ↔ st.1 = [] ∧ st.2 = [] := by
  simp only [flushWord]
  split_ifs with h
  · simp [h]
  · simp only [ne_eq, not_not] at h
    simp [h]

/-- Without a word character the state does not leave the initial one. -/
theorem foldl_no_wordChar (L : Locale) (t : WString)
    (h : ∀ c ∈ t, isWordChar L c = false) :
    t.foldl (tokenStep L) ([], []) = ([], []) := by
  induction t with
  | nil => rfl
  | cons c t ih =>
    simp only [List.foldl_cons]
    have hc := h c (List.mem_cons_self c t)
    rcases tokenStep_cases L ([], []) c with ⟨hw, _⟩ | ⟨_, e⟩ | ⟨_, e⟩
    · rw [hc] at hw; cases hw
    · rw [e, flushWord_nil]; exact ih (fun d hd => h d (List.mem_cons_of_mem _ hd))
    · rw [e]; exact ih (fun d hd => h d (List.mem_cons_of_mem _ hd))

/-- A state that holds a word keeps holding one. -/
theorem foldl_holds_word (L : Locale) (t : WString) :
    ∀ st : WString × List WString, ¬ (st.1 = [] ∧ st.2 = []) →
      ¬ ((t.foldl (tokenStep L) st).1 = [] ∧ (t.foldl (tokenStep L) st).2 = []) := by
  induction t with
  | nil => intro st h; exact h
  | cons c t ih =>
    intro st h
    simp only [List.foldl_cons]
    apply ih
    rcases tokenStep_cases L st c with ⟨_, e⟩ | ⟨_, e⟩ | ⟨_, e⟩
    · rw [e]; simp
    · rw [e]
      intro h'
      exact h ((flushWord_eq_nil st).mp h'.2)
    · rw [e]; exact h

/-- After a word character the state holds a word. -/
theorem foldl_has_wordChar (L : Locale) (t : WString) :
    ∀ st : WString × List WString, (∃ c ∈ t, isWordChar L c = true) →
      ¬ ((t.foldl (tokenStep L) st).1 = [] ∧ (t.foldl (tokenStep L) st).2 = []) := by
  induction t with
  | nil => intro st h; obtain ⟨c, hc, _⟩ := h; cases hc
  | cons c t ih =>
    intro st h
    simp only [List.foldl_cons]
    by_cases hc : isWordChar L c = true
    · apply foldl_holds_word
      rw [tokenStep_word L st c hc]
      simp
    · apply ih
      obtain ⟨d, hd, hdw⟩ := h
      rcases List.mem_cons.mp hd with e | hd'
      · rw [e] at hdw; exact absurd hdw hc
      · exact ⟨d, hd', hdw⟩

/-! ## Tokenizer: the tokens in the order of the text -/

theorem flatten_flushWord (st : WString × List WString) :
    (flushWord st).flatten = st.2.flatten ++ st.1 := by
  simp only [flushWord]
  split_ifs with h
  · simp
  · simp only [ne_eq, not_not] at h
    simp [h]

/-- The characters kept so far, in order, are a subsequence of the lower-case
form of the text read so far. -/
theorem foldl_sublist (L : Locale) (hL : L.Conforming) (t : WString) :
    ∀ (st : WString × List WString) (p : WString),
      List.Sublist (st.2.flatten ++ st.1) p →
      List.Sublist ((t.foldl (tokenStep L) st).2.flatten ++ (t.foldl (tokenStep L) st).1)
        (p ++ t.map L.towlower) := by
  induction t with
  | nil => intro st p h; simpa using h
  | cons c t ih =>
    intro st p h
    simp only [List.foldl_cons, List.map_cons]
    have hp : p ++ L.towlower c :: List.map L.towlower t
        = (p ++ [L.towlower c]) ++ List.map L.towlower t := by simp
    rw [hp]
    apply ih
    rcases tokenStep_cases L st c with ⟨hw, e⟩ | ⟨_, e⟩ | ⟨_, e⟩
    · rw [e, wordChar_foldChar_eq L hL c hw]
      show List.Sublist (st.2.flatten ++ (st.1 ++ [L.towlower c])) (p ++ [L.towlower c])
      rw [← List.append_assoc]
      exact List.Sublist.append h (List.Sublist.refl _)
    · rw [e]
      show List.Sublist ((flushWord st).flatten ++ []) (p ++ [L.towlower c])
      rw [List.append_nil, flatten_flushWord]
      exact h.trans (List.sublist_append_left p _)
    · rw [e]
      exact h.trans (List.sublist_append_left p _)

/-! ## Keys: splitting at the first space -/

theorem append_space_inj : ∀ (a a' r r' : WString), 0x20 ∉ a → 0x20 ∉ a' →
    a ++ 0x20 :: r = a' ++ 0x20 :: r' → a = a' ∧ r = r' := by
  intro a
  induction a with
  | nil =>
    intro a' r r' _ ha' h
    cases a' with
    | nil => simpa using h
    | cons y ys =>
      simp only [List.nil_append, List.cons_append, List.cons.injEq] at h
      exact absurd (by rw [← h.1]; exact List.mem_cons_self _ _) ha'
  | cons x xs ih =>
    intro a' r r' ha ha' h
    cases a' with
    | nil =>
      simp only [List.nil_append, List.cons_append, List.cons.injEq] at h
      exact absurd (by rw [h.1]; exact List.mem_cons_self _ _) ha
    | cons y ys =>
      simp only [List.cons_append, List.cons.injEq] at h
      obtain ⟨e, hrest⟩ :=
        ih ys r r' (fun hm => ha (List.mem_cons_of_mem _ hm))
          (fun hm => ha' (List.mem_cons_of_mem _ hm)) h.2
      exact ⟨by rw [h.1, e], hrest⟩

theorem sequenceKey_eq (w0 w1 w2 : WString) :
    sequenceKey w0 w1 w2 = w0 ++ 0x20 :: (w1 ++ 0x20 :: w2) := by
  simp [sequenceKey]

/-- In a conforming locale no token holds a space. -/
theorem space_not_mem_token (L : Locale) (hL : L.Conforming) (text : WString) (w : WString)
    (hw : w ∈ consolidateSequences L text) : 0x20 ∉ w := by
  intro hmem
  obtain ⟨_, hword, _⟩ :=
    (tokens_invariant L
      (fun c => L.towlower c = c ∧ (L.iswalnum c = true ∨ c > 127) ∧ isDoubleQuote c = false)
      (fun c0 h => wordChar_foldChar L hL c0 h) text w hw).2 0x20 hmem
  have h32 : L.iswalnum 0x20 = false := by rw [hL.alnum_ascii _ (by norm_num)]; rfl
  rcases hword with h | h
  · rw [h32] at h; cases h
  · omega

/-! ## Tokenizer: tokenizing the tokens again -/

/-- The tokens of `a`, a separator run and `b` are the tokens of `a` and then
the tokens of `b`. -/
theorem tokens_split (L : Locale) (hL : L.Conforming) (a s b : WString) (hs : s ≠ [])
    (hsep : ∀ c ∈ s, isSeparator c = true) :
    consolidateSequences L (a ++ s ++ b) =
      consolidateSequences L a ++ consolidateSequences L b := by
  rw [List.append_assoc, consolidateSequences_append, List.foldl_append,
    foldl_separators L s (fun c hc => separator_foldChar L hL c (hsep c hc)) _ hs,
    flushWord_foldl]
  rfl

/-- A character of a token is a word character that the loop appends as it
is. -/
theorem token_char_stable (L : Locale) (hL : L.Conforming) (text : WString) :
    ∀ w ∈ consolidateSequences L text,
      w ≠ [] ∧ ∀ c ∈ w, isWordChar L c = true ∧ foldChar L c = c := by
  intro w hw
  have h := tokens_invariant L
    (fun c => L.towlower c = c ∧ (L.iswalnum c = true ∨ c > 127) ∧ isDoubleQuote c = false)
    (fun c0 h => wordChar_foldChar L hL c0 h) text w hw
  refine ⟨h.1, ?_⟩
  intro c hc
  obtain ⟨hlow, hword, hq⟩ := h.2 c hc
  have hf : foldChar L c = c := by
    unfold foldChar
    rw [hlow, hq]
    simp
  refine ⟨?_, hf⟩
  unfold isWordChar
  rw [hf]
  rcases hword with h | h
  · simp [h]
  · simp [h]

/-- A non-empty word of such characters is its own single token. -/
theorem consolidateSequences_word (L : Locale) (w : WString) (hne : w ≠ [])
    (h : ∀ c ∈ w, isWordChar L c = true ∧ foldChar L c = c) :
    consolidateSequences L w = [w] := by
  have hmap : w.map (foldChar L) = w := by
    conv_rhs => rw [← List.map_id w]
    exact List.map_congr_left (fun c hc => (h c hc).2)
  simp only [consolidateSequences]
  rw [foldl_wordChars L w (fun c hc => (h c hc).1), hmap]
  simp [flushWord, hne]

theorem consolidateSequences_joinWords (L : Locale) (hL : L.Conforming) :
    ∀ ws : List WString,
      (∀ w ∈ ws, w ≠ [] ∧ ∀ c ∈ w, isWordChar L c = true ∧ foldChar L c = c) →
      consolidateSequences L (joinWords ws) = ws := by
  intro ws
  induction ws with
  | nil => intro _; rfl
  | cons w rest ih =>
    intro h
    have hw := h w (List.mem_cons_self w rest)
    cases rest with
    | nil => exact consolidateSequences_word L w hw.1 hw.2
    | cons v rest' =>
      simp only [joinWords]
      rw [tokens_split L hL w [0x20] _ (by simp)
        (by intro c hc; rw [List.mem_singleton.mp hc]; rfl),
        consolidateSequences_word L w hw.1 hw.2,
        ih (fun u hu => h u (List.mem_cons_of_mem _ hu))]
      rfl

/-! ## Tables with the same keys and counts -/

theorem mem_keys_cons (e : Entry) (m : TrigramMap) (k : WString) :
    k ∈ keys (e :: m) ↔ k = e.1 ∨ k ∈ keys m := by
  simp [keys]

theorem lt_of_mem_keys (e : Entry) (m : TrigramMap) (h : KeysAscending (e :: m))
    (k : WString) (hk : k ∈ keys m) : wstrLt e.1 k = true := by
  obtain ⟨x, hx, hxk⟩ := List.mem_map.mp hk
  rw [← hxk]
  exact ((keysAscending_cons e m).mp h).1 x hx

theorem not_mem_keys_head (e : Entry) (m : TrigramMap) (h : KeysAscending (e :: m)) :
    e.1 ∉ keys m := by
  intro hk
  have := lt_of_mem_keys e m h e.1 hk
  rw [wstrLt_irrefl] at this
  cases this

/-- Two well-formed tables with the same keys and the same counts are the same
table. -/
theorem table_ext : ∀ (m1 m2 : TrigramMap), KeysAscending m1 → KeysAscending m2 →
    (∀ k, k ∈ keys m1 ↔ k ∈ keys m2) → (∀ k, count m1 k = count m2 k) → m1 = m2 := by
  intro m1
  induction m1 with
  | nil =>
    intro m2 _ _ hk _
    cases m2 with
    | nil => rfl
    | cons e r =>
      have : e.1 ∈ keys ([] : TrigramMap) := (hk e.1).mpr ((mem_keys_cons e r e.1).mpr (Or.inl rfl))
      simp [keys] at this
  | cons e1 r1 ih =>
    intro m2 h1 h2 hk hc
    cases m2 with
    | nil =>
      have : e1.1 ∈ keys ([] : TrigramMap) :=
        (hk e1.1).mp ((mem_keys_cons e1 r1 e1.1).mpr (Or.inl rfl))
      simp [keys] at this
    | cons e2 r2 =>
      obtain ⟨k1, v1⟩ := e1
      obtain ⟨k2, v2⟩ := e2
      have hkey : k1 = k2 := by
        have a1 := (mem_keys_cons (k2, v2) r2 k1).mp
          ((hk k1).mp ((mem_keys_cons (k1, v1) r1 k1).mpr (Or.inl rfl)))
        have a2 := (mem_keys_cons (k1, v1) r1 k2).mp
          ((hk k2).mpr ((mem_keys_cons (k2, v2) r2 k2).mpr (Or.inl rfl)))
        rcases a1 with a1 | a1
        · exact a1
        · rcases a2 with a2 | a2
          · exact a2.symm
          · have l1 := lt_of_mem_keys (k2, v2) r2 h2 k1 a1
            have l2 := lt_of_mem_keys (k1, v1) r1 h1 k2 a2
            have := wstrLt_trans k1 k2 k1 l2 l1
            rw [wstrLt_irrefl] at this
            cases this
      subst hkey
      have hval : v1 = v2 := by
        have := hc k1
        simpa [count] using this
      subst hval
      have hn1 := not_mem_keys_head (k1, v1) r1 h1
      have hn2 := not_mem_keys_head (k1, v1) r2 h2
      have htail : r1 = r2 := by
        apply ih r2 ((keysAscending_cons _ _).mp h1).2 ((keysAscending_cons _ _).mp h2).2
        · intro k
          constructor
          · intro hm
            rcases (mem_keys_cons (k1, v1) r2 k).mp
                ((hk k).mp ((mem_keys_cons (k1, v1) r1 k).mpr (Or.inr hm))) with e | e
            · rw [e] at hm; exact absurd hm hn1
            · exact e
          · intro hm
            rcases (mem_keys_cons (k1, v1) r1 k).mp
                ((hk k).mpr ((mem_keys_cons (k1, v1) r2 k).mpr (Or.inr hm))) with e | e
            · rw [e] at hm; exact absurd hm hn2
            · exact e
        · intro k
          by_cases hkk : k = k1
          · rw [hkk,
              count_of_lt_all k1 r1 ((keysAscending_cons _ _).mp h1).1,
              count_of_lt_all k1 r2 ((keysAscending_cons _ _).mp h2).1]
          · have := hc k
            simpa [count, hkk] using this
      rw [htail]

/-! ## The counter on texts of at least two tokens -/

/-- A text of at least two tokens: the call returns, the keys stay ascending,
every count has been incremented once for each window with that key, and the
keys of the result are the old keys and the keys of the windows. -/
theorem generateTrigramMap_spec (L : Locale) (text : WString) (T : TrigramMap)
    (hT : KeysAscending T)
    (hn : 2 ≤ (consolidateSequences L text).length)
    (hsize : (consolidateSequences L text).length < SIZE_MOD) :
    ∃ T', generateTrigramMap L text T = some T' ∧ KeysAscending T' ∧
      (∀ k, count T' k =
        afterIncrements (count T k) (occurrences (consolidateSequences L text) k)) ∧
      (∀ k, k ∈ keys T' ↔ k ∈ keys T ∨ 0 < occurrences (consolidateSequences L text) k) := by
  obtain ⟨T', hrun, hasc, hcount, hkeys⟩ :=
    trigramLoop_spec (consolidateSequences L text) ((consolidateSequences L text).length - 2) 0 T
      (by omega) hT
  refine ⟨T', ?_, hasc, ?_, ?_⟩
  · simp only [generateTrigramMap]
    rw [loopBound_of_ge _ hn hsize]
    exact hrun
  · intro k; rw [occurrences_eq]; exact hcount k
  · intro k; rw [occurrences_eq]; exact hkeys k

/-- Two texts of at least two tokens each: both orders return, and return the
same table. -/
theorem generateTrigramMap_comm (L : Locale) (A B : WString) (T : TrigramMap)
    (hT : KeysAscending T)
    (hA : 2 ≤ (consolidateSequences L A).length)
    (hA' : (consolidateSequences L A).length < SIZE_MOD)
    (hB : 2 ≤ (consolidateSequences L B).length)
    (hB' : (consolidateSequences L B).length < SIZE_MOD) :
    ∃ T', (generateTrigramMap L A T).bind (generateTrigramMap L B) = some T' ∧
      (generateTrigramMap L B T).bind (generateTrigramMap L A) = some T' := by
  obtain ⟨Ta, ha, haasc, hac, hak⟩ := generateTrigramMap_spec L A T hT hA hA'
  obtain ⟨Tab, hab, habasc, habc, habk⟩ := generateTrigramMap_spec L B Ta haasc hB hB'
  obtain ⟨Tb, hb, hbasc, hbc, hbk⟩ := generateTrigramMap_spec L B T hT hB hB'
  obtain ⟨Tba, hba, hbaasc, hbac, hbak⟩ := generateTrigramMap_spec L A Tb hbasc hA hA'
  have heq : Tab = Tba := by
    apply table_ext Tab Tba habasc hbaasc
    · intro k
      rw [habk k, hak k, hbak k, hbk k]
      exact or_right_comm
    · intro k
      rw [habc k, hac k, hbac k, hbc k, afterIncrements_add, afterIncrements_add,
        Nat.add_comm]
  refine ⟨Tab, ?_, ?_⟩
  · rw [ha, Option.some_bind]; exact hab
  · rw [hb, Option.some_bind, heq]; exact hba

/-! ## Windows of a concatenation -/

theorem occurrencesFrom_zero (words : List WString) (i : Nat) (k : WString) :
    occurrencesFrom words i 0 k = 0 := by
  simp [occurrencesFrom]

theorem totalCount_cons (e : Entry) (m : TrigramMap) :
    totalCount (e :: m) = e.2 + totalCount m := by
  simp [totalCount]

theorem totalCount_nonneg (m : TrigramMap) (h : ∀ e ∈ m, 1 ≤ e.2) : 0 ≤ totalCount m := by
  induction m with
  | nil => simp [totalCount]
  | cons e rest ih =>
    rw [totalCount_cons]
    have h1 := h e (List.mem_cons_self _ _)
    have h2 := ih (fun x hx => h x (List.mem_cons_of_mem _ hx))
    omega

/-- On a table of counts that are at least 1 and sum to less than `INT_MAX`,
the statement `trigramMap[sequence]++` adds one to the sum and keeps every
count at least 1. -/
theorem totalCount_increment (key : WString) (m : TrigramMap) (h : ∀ e ∈ m, 1 ≤ e.2)
    (hfit : totalCount m + 1 ≤ INT_MAX) :
    totalCount (increment key m) = totalCount m + 1 ∧ ∀ e ∈ increment key m, 1 ≤ e.2 := by
  induction m with
  | nil =>
    simp only [increment, wrapInt_one]
    refine ⟨by simp [totalCount], ?_⟩
    intro e he
    rw [List.mem_singleton.mp he]
  | cons x rest ih =>
    obtain ⟨k, v⟩ := x
    have hv : 1 ≤ v := h (k, v) (List.mem_cons_self _ _)
    have hrest : ∀ e ∈ rest, 1 ≤ e.2 := fun e he => h e (List.mem_cons_of_mem _ he)
    have hnn := totalCount_nonneg rest hrest
    rw [totalCount_cons] at hfit
    have hwrap : wrapInt (v + 1) = v + 1 :=
      wrapInt_of_fit _ (by omega) (by show v + 1 ≤ INT_MAX; omega)
    simp only [increment, wrapInt_one]
    split_ifs
    · refine ⟨by simp only [totalCount_cons]; omega, ?_⟩
      intro e he
      rcases List.mem_cons.mp he with he | he
      · rw [he]
      · exact h e he
    · refine ⟨by simp only [totalCount_cons, hwrap]; omega, ?_⟩
      intro e he
      rcases List.mem_cons.mp he with he | he
      · rw [he, hwrap]; show 1 ≤ v + 1; omega
      · exact hrest e he
    · obtain ⟨ih1, ih2⟩ := ih hrest (by show totalCount rest + 1 ≤ INT_MAX; omega)
      refine ⟨by simp only [totalCount_cons, ih1]; omega, ?_⟩
      intro e he
      rcases List.mem_cons.mp he with he | he
      · rw [he]; exact hv
      · exact ih2 e he

/-- A run of the loop that returns, on a table of counts that are at least 1
and whose sum stays within `int`, has added one to the sum of the counts at
each iteration, and keeps every count at least 1. -/
theorem trigramLoop_total (words : List WString) :
    ∀ (r i : Nat) (m m' : TrigramMap), trigramLoop words r i m = some m' →
      (∀ e ∈ m, 1 ≤ e.2) → totalCount m + (r : Int) ≤ INT_MAX →
      totalCount m' = totalCount m + (r : Int) ∧ ∀ e ∈ m', 1 ≤ e.2 := by
  intro r
  induction r with
  | zero =>
    intro i m m' h hp _
    simp only [trigramLoop, Option.some.injEq] at h
    subst h
    exact ⟨by simp, hp⟩
  | succ r ih =>
    intro i m m' h hp hfit
    by_cases hi : i + 2 < words.length
    · rw [trigramLoop_succ words r i m hi] at h
      push_cast at hfit
      obtain ⟨hs1, hp1⟩ := totalCount_increment (trigramAt words i) m hp (by omega)
      obtain ⟨hsum, hpos⟩ := ih (i + 1) _ m' h hp1 (by rw [hs1]; omega)
      refine ⟨?_, hpos⟩
      rw [hsum, hs1]
      push_cast
      ring
    · rw [trigramLoop_fault words r i m (by omega)] at h
      cases h

/-! ## Case and non-ASCII characters -/

/-- C11: tokenization is case-insensitive: the tokens of a text are the tokens
of the text with every character replaced by its lower-case form `towlower`.
In particular, where `towlower` maps the ASCII letters `A`-`Z` to `a`-`z`, a
text of ASCII letters and spaces and its all-upper-case version have the same
tokens, and these are lower-case. -/
theorem consolidateSequences_case_insensitive (L : Locale) (hL : L.Conforming)
    (text : WString) :
    consolidateSequences L (text.map L.towlower) = consolidateSequences L text ∧
      ((∀ c, 65 ≤ c ∧ c ≤ 90 → L.towlower c = c + 32) →
        (∀ c ∈ text, (65 ≤ c ∧ c ≤ 90) ∨ (97 ≤ c ∧ c ≤ 122) ∨ c = 0x20) →
        consolidateSequences L (text.map asciiUpper) = consolidateSequences L text ∧
          ∀ w ∈ consolidateSequences L text, ∀ c ∈ w, L.towlower c = c) := by
  refine ⟨consolidateSequences_map L L.towlower text (fun c _ => hL.towlower_idem c), ?_⟩
  intro hup hascii
  refine ⟨?_, ?_⟩
  · apply consolidateSequences_map
    intro c hc
    unfold asciiUpper
    split_ifs with h
    · rw [hup (c - 32) (by omega), hL.towlower_lower c (Or.inl h)]
      omega
    · rfl
  · intro w hw c hc
    exact ((tokens_invariant L
      (fun c => L.towlower c = c ∧ (L.iswalnum c = true ∨ c > 127) ∧ isDoubleQuote c = false)
      (fun c0 h => wordChar_foldChar L hL c0 h) text w hw).2 c hc).1

theorem consolidateSequences_case_insensitive_witness :
    consolidateSequences cLocale ((wstr "I Love sandwiches").map cLocale.towlower) =
        consolidateSequences cLocale (wstr "I Love sandwiches") ∧
      consolidateSequences cLocale ((wstr "I Love sandwiches").map asciiUpper) =
        consolidateSequences cLocale (wstr "I Love sandwiches") ∧
      (wstr "I Love sandwiches").map asciiUpper = wstr "I LOVE SANDWICHES" :=
  have h := consolidateSequences_case_insensitive cLocale cLocale_conforming
    (wstr "I Love sandwiches")
  ⟨h.1, (h.2 (by intro c hc; simp only [cLocale]; rw [if_pos hc]) (by decide)).1, by decide⟩

/-- C12: non-ASCII characters are word content. A non-empty text in which no
character is a straight or curly double quote and every character, once
lower-cased, is alphanumeric or above code point 127 is a single token: the
text with every character lower-cased. -/
theorem consolidateSequences_single_token (L : Locale) (hL : L.Conforming) (text : WString)
    (hne : text ≠ []) (hq : ∀ c ∈ text, isDoubleQuote c = false)
    (hw : ∀ c ∈ text, L.iswalnum (L.towlower c) = true ∨ L.towlower c > 127) :
    consolidateSequences L text = [text.map L.towlower] := by
  have hfold : ∀ c ∈ text, foldChar L c = L.towlower c := by
    intro c hc
    unfold foldChar
    rw [towlower_not_quote L hL c (hq c hc)]
    simp
  have hword : ∀ c ∈ text, isWordChar L c = true := by
    intro c hc
    unfold isWordChar
    rw [hfold c hc]
    rcases hw c hc with h | h
    · simp [h]
    · simp [h]
  have hmap : text.map (foldChar L) = text.map L.towlower := List.map_congr_left hfold
  simp only [consolidateSequences]
  rw [foldl_wordChars L text hword, hmap]
  have hne' : List.map L.towlower text ≠ [] := by simpa using hne
  simp [flushWord, hne']

theorem consolidateSequences_single_token_witness :
    consolidateSequences cLocale (wstr "Vasíli") = [(wstr "Vasíli").map cLocale.towlower] ∧
      (wstr "Vasíli").map cLocale.towlower = wstr "vasíli" :=
  ⟨consolidateSequences_single_token cLocale cLocale_conforming (wstr "Vasíli")
    (by decide) (by decide) (by decide), by decide⟩

/-! ## Several texts -/

/-- C13: with the empty text as one of the two texts, neither order of the calls
returns a table: the call on the empty text reads outside `words`, whichever
call comes first. -/
theorem generateTrigramMap_order_empty_text (L : Locale) (B : WString) (T : TrigramMap) :
    (generateTrigramMap L [] T).bind (generateTrigramMap L B) = none ∧
      (generateTrigramMap L B T).bind (generateTrigramMap L []) = none := by
  have h : consolidateSequences L [] = [] := rfl
  have hfault : ∀ T', generateTrigramMap L [] T' = none :=
    fun T' => generateTrigramMap_fault L [] T' (by rw [h]; decide)
  refine ⟨by rw [hfault T]; rfl, ?_⟩
  cases generateTrigramMap L B T with
  | none => rfl
  | some T' => rw [Option.some_bind]; exact hfault T'

/-- C15: for every input text, every token returned by `consolidateSequences` is
non-empty and consists only of characters that are alphanumeric or have a code
point above 127, and the tokens come in the order of the text: their
concatenation is a subsequence of the lower-cased text. -/
theorem tokens_content_and_order (L : Locale) (hL : L.Conforming) (text : WString) :
    (∀ w ∈ consolidateSequences L text,
        w ≠ [] ∧ ∀ c ∈ w, L.iswalnum c = true ∨ c > 127) ∧
      List.Sublist (consolidateSequences L text).flatten (text.map L.towlower) := by
  refine ⟨?_, ?_⟩
  · intro w hw
    have h := tokens_invariant L
      (fun c => L.towlower c = c ∧ (L.iswalnum c = true ∨ c > 127) ∧ isDoubleQuote c = false)
      (fun c0 h => wordChar_foldChar L hL c0 h) text w hw
    exact ⟨h.1, fun c hc => (h.2 c hc).2.1⟩
  · have h := foldl_sublist L hL text ([], []) [] (by simp)
    simp only [consolidateSequences, flatten_flushWord]
    simpa using h

theorem tokens_content_and_order_witness :
    wstr "sandwiches" ∈ consolidateSequences cLocale (wstr "“Sandwiches,” he said") ∧
      (cLocale.iswalnum 115 = true ∨ 115 > 127) ∧
      List.Sublist (consolidateSequences cLocale (wstr "“Sandwiches,” he said")).flatten
        ((wstr "“Sandwiches,” he said").map cLocale.towlower) :=
  have h := tokens_content_and_order cLocale cLocale_conforming (wstr "“Sandwiches,” he said")
  ⟨by decide, (h.1 (wstr "sandwiches") (by decide)).2 115 (by decide), h.2⟩

/-- In a conforming locale the word characters are the characters whose
lower-case form is alphanumeric or above code point 127, the two curly double
quotes apart. -/
theorem isWordChar_iff (L : Locale) (hL : L.Conforming) (c : Nat) :
    isWordChar L c = true ↔
      (L.iswalnum (L.towlower c) = true ∨ L.towlower c > 127) ∧
        L.towlower c ≠ 0x201C ∧ L.towlower c ≠ 0x201D := by
  have h32 : L.iswalnum 0x20 = false := by rw [hL.alnum_ascii _ (by norm_num)]; rfl
  have h34 : L.iswalnum 0x22 = false := by rw [hL.alnum_ascii _ (by norm_num)]; rfl
  unfold isWordChar foldChar
  by_cases hq : isDoubleQuote (L.towlower c) = true
  · rw [if_pos hq, h32]
    simp only [isDoubleQuote, Bool.or_eq_true, beq_iff_eq] at hq
    constructor
    · intro h; simp at h
    · rintro ⟨h1, h2, h3⟩
      rcases hq with (hq | hq) | hq
      · rw [hq, h34] at h1
        rcases h1 with h1 | h1
        · cases h1
        · omega
      · exact absurd hq h2
      · exact absurd hq h3
  · rw [if_neg hq]
    simp only [isDoubleQuote, Bool.or_eq_true, beq_iff_eq, not_or] at hq
    simp only [Bool.or_eq_true, decide_eq_true_eq]
    constructor
    · intro h; exact ⟨h, hq.1.2, hq.2⟩
    · intro h; exact h.1

/-- C16: `consolidateSequences` returns no token if and only if no character of
the text is word content after case-folding and quote replacement, that is,
none has a lower-case form that is alphanumeric or above code point 127 other
than the curly double quotes; so the empty text and the texts made only of
spaces, newlines, double quotes and ASCII punctuation yield no token. -/
theorem consolidateSequences_eq_nil_iff (L : Locale) (hL : L.Conforming) (text : WString) :
    (consolidateSequences L text = [] ↔ ∀ c ∈ text, isWordChar L c = false) ∧
      (consolidateSequences L text = [] ↔
        ∀ c ∈ text, ¬ ((L.iswalnum (L.towlower c) = true ∨ L.towlower c > 127) ∧
          L.towlower c ≠ 0x201C ∧ L.towlower c ≠ 0x201D)) ∧
      consolidateSequences L [] = [] ∧
      ((∀ c ∈ text, isSeparator c = true ∨ isAsciiPunct c = true) →
        consolidateSequences L text = []) := by
  have hiff : consolidateSequences L text = [] ↔ ∀ c ∈ text, isWordChar L c = false := by
    constructor
    · intro h c hc
      by_contra hw
      have hw' : isWordChar L c = true := by simpa using hw
      have := foldl_has_wordChar L text ([], []) ⟨c, hc, hw'⟩
      exact this ((flushWord_eq_nil _).mp h)
    · intro h
      simp only [consolidateSequences]
      rw [foldl_no_wordChar L text h]
      rfl
  refine ⟨hiff, ?_, rfl, ?_⟩
  · rw [hiff]
    constructor
    · intro h c hc hw
      have := (isWordChar_iff L hL c).mpr hw
      rw [h c hc] at this
      cases this
    · intro h c hc
      by_contra hw
      have hw' : isWordChar L c = true := by simpa using hw
      exact h c hc ((isWordChar_iff L hL c).mp hw')
  · intro h
    rw [hiff]
    intro c hc
    rcases h c hc with hs | hp
    · exact (separator_foldChar L hL c hs).1
    · have hc127 : c ≤ 127 := by
        simp only [isAsciiPunct, Bool.or_eq_true, Bool.and_eq_true, decide_eq_true_eq] at hp
        omega
      have hal : L.iswalnum c = false := by
        rw [hL.alnum_ascii c hc127]
        simp only [isAsciiPunct, Bool.or_eq_true, Bool.and_eq_true, decide_eq_true_eq] at hp
        simp only [isAsciiAlnum, Bool.or_eq_false_iff, Bool.and_eq_false_iff,
          decide_eq_false_iff_not]
        omega
      by_cases h34 : c = 0x22
      · exact (separator_foldChar L hL c (by rw [h34]; rfl)).1
      · have hne : c ≠ 0x20 ∧ c ≠ 0x0A := by
          simp only [isAsciiPunct, Bool.or_eq_true, Bool.and_eq_true, decide_eq_true_eq] at hp
          omega
        exact (dropped_foldChar L hL c hc127 hal hne.1 hne.2 h34).1

theorem consolidateSequences_eq_nil_iff_witness :
    (consolidateSequences cLocale (wstr "\" ?!\n., ”") = [] ↔
        ∀ c ∈ wstr "\" ?!\n., ”", isWordChar cLocale c = false) ∧
      consolidateSequences cLocale (wstr "\" ?!\n., ”") = [] :=
  have h := consolidateSequences_eq_nil_iff cLocale cLocale_conforming (wstr "\" ?!\n., ”")
  ⟨h.1, h.2.2.2 (by decide)⟩

/-! ## Keys and totals -/

/-- C17: trigram keys are unambiguous. No token produced by
`consolidateSequences` contains the space U+0020, so the key
`w0 + " " + w1 + " " + w2` of `generateTrigramMap` determines its three words:
two windows of tokens with the same key are the same three tokens. -/
theorem sequenceKey_injective (L : Locale) (hL : L.Conforming) (t1 t2 : WString)
    (w0 w1 w2 v0 v1 v2 : WString)
    (hw0 : w0 ∈ consolidateSequences L t1) (hw1 : w1 ∈ consolidateSequences L t1)
    (hv0 : v0 ∈ consolidateSequences L t2) (hv1 : v1 ∈ consolidateSequences L t2)
    (h : sequenceKey w0 w1 w2 = sequenceKey v0 v1 v2) :
    (0x20 ∉ w0 ∧ 0x20 ∉ w1) ∧ w0 = v0 ∧ w1 = v1 ∧ w2 = v2 := by
  have s0 := space_not_mem_token L hL t1 w0 hw0
  have s1 := space_not_mem_token L hL t1 w1 hw1
  have r0 := space_not_mem_token L hL t2 v0 hv0
  have r1 := space_not_mem_token L hL t2 v1 hv1
  rw [sequenceKey_eq, sequenceKey_eq] at h
  obtain ⟨e0, hrest⟩ := append_space_inj w0 v0 _ _ s0 r0 h
  obtain ⟨e1, e2⟩ := append_space_inj w1 v1 _ _ s1 r1 hrest
  exact ⟨⟨s0, s1⟩, e0, e1, e2⟩

theorem sequenceKey_injective_witness :
    (0x20 ∉ wstr "a" ∧ 0x20 ∉ wstr "b") ∧
      wstr "a" = wstr "a" ∧ wstr "b" = wstr "b" ∧ wstr "c" = wstr "c" :=
  sequenceKey_injective cLocale cLocale_conforming (wstr "a b c") (wstr "c, a. b?")
    (wstr "a") (wstr "b") (wstr "c") (wstr "a") (wstr "b") (wstr "c")
    (by decide) (by decide) (by decide) (by decide) rfl

/-- A key of the table is stored with its count. -/
theorem mem_of_mem_keys (m : TrigramMap) (k : WString) (h : k ∈ keys m) :
    (k, count m k) ∈ m := by
  induction m with
  | nil => simp [keys] at h
  | cons e rest ih =>
    obtain ⟨k0, v⟩ := e
    simp only [count]
    split_ifs with hk
    · rw [hk]; exact List.mem_cons_self _ _
    · rcases (mem_keys_cons (k0, v) rest k).mp h with e | e
      · exact absurd e hk
      · exact List.mem_cons_of_mem _ (ih e)

/-- The tokens of a word written `n` times, each time followed by a space. -/
theorem tokens_replicate (L : Locale) (hL : L.Conforming) (w : WString) (hne : w ≠ [])
    (hw : ∀ c ∈ w, isWordChar L c = true ∧ foldChar L c = c) :
    ∀ n : Nat,
      consolidateSequences L (List.replicate n (w ++ [0x20])).flatten = List.replicate n w := by
  intro n
  induction n with
  | zero => rfl
  | succ n ih =>
    rw [List.replicate_succ, List.flatten_cons,
      tokens_split L hL w [0x20] _ (by simp)
        (by intro c hc; rw [List.mem_singleton.mp hc]; rfl),
      consolidateSequences_word L w hne hw, ih, List.replicate_succ]
    rfl

theorem trigramAt_replicate (w : WString) (n j : Nat) (h : j + 2 < n) :
    trigramAt (List.replicate n w) j = sequenceKey w w w := by
  have e : ∀ i, i < n → (List.replicate n w).getD i [] = w := by
    intro i hi
    simp [List.getD_eq_getElem?_getD, List.getElem?_replicate, hi]
  simp only [trigramAt]
  rw [e j (by omega), e (j + 1) (by omega), e (j + 2) (by omega)]

theorem occurrencesFrom_const (words : List WString) (k : WString) :
    ∀ (r i : Nat), (∀ j, j < r → trigramAt words (i + j) = k) →
      occurrencesFrom words i r k = r := by
  intro r
  induction r with
  | zero => intro i _; exact occurrencesFrom_zero words i k
  | succ r ih =>
    intro i h
    rw [occurrencesFrom_succ, if_pos (by simpa using h 0 (by omega)), ih (i + 1)]
    · omega
    · intro j hj
      rw [show i + 1 + j = i + (j + 1) by omega]
      exact h (j + 1) (by omega)

theorem occurrences_replicate (w : WString) (n : Nat) :
    occurrences (List.replicate n w) (sequenceKey w w w) = n - 2 := by
  rw [occurrences_eq, List.length_replicate]
  apply occurrencesFrom_const
  intro j hj
  exact trigramAt_replicate w n (0 + j) (by omega)

/-- C18, as stated, fails: the text made of the word `a` written 2147483650
times has 2147483650 tokens and 2147483648 windows, all of key `"a a a"`; the
`int` count of that key is incremented past `INT_MAX` and the table returned
stores `-2147483648` for it, which is not at least 1. -/
theorem generateTrigramMap_repeated_word :
    ∃ T', generateTrigramMap cLocale (List.replicate 2147483650 (wstr "a ")).flatten [] = some T' ∧
      (consolidateSequences cLocale (List.replicate 2147483650 (wstr "a ")).flatten).length
        = 2147483650 ∧
      (wstr "a a a", -2147483648) ∈ T' := by
  have htok : consolidateSequences cLocale (List.replicate 2147483650 (wstr "a ")).flatten =
      List.replicate 2147483650 (wstr "a") :=
    tokens_replicate cLocale cLocale_conforming (wstr "a") (by decide) (by decide) 2147483650
  have hlen : (consolidateSequences cLocale
      (List.replicate 2147483650 (wstr "a ")).flatten).length = 2147483650 := by
    rw [htok, List.length_replicate]
  obtain ⟨T', hrun, _, hcount, hkeys⟩ := generateTrigramMap_spec cLocale
    (List.replicate 2147483650 (wstr "a ")).flatten [] (by decide)
    (by rw [hlen]; decide) (by rw [hlen]; decide)
  have hocc : occurrences (consolidateSequences cLocale
      (List.replicate 2147483650 (wstr "a ")).flatten) (wstr "a a a") = 2147483648 := by
    rw [htok]
    exact occurrences_replicate (wstr "a") 2147483650
  have hmem : wstr "a a a" ∈ keys T' := by
    rw [hkeys, hocc]
    exact Or.inr (by decide)
  have hval : count T' (wstr "a a a") = -2147483648 := by
    rw [hcount, hocc]
    decide
  refine ⟨T', hrun, hlen, ?_⟩
  rw [← hval]
  exact mem_of_mem_keys T' _ hmem

/-- C18, amended: for every text whose token sequence has length `n` with
`3 ≤ n ≤ 2147483649` (so that `n - 2` fits `int`), `generateTrigramMap` applied
to the empty table returns a table in which every stored count is at least 1
and the counts sum to `n - 2`. -/
theorem generateTrigramMap_total (L : Locale) (text : WString)
    (hn : 3 ≤ (consolidateSequences L text).length)
    (hmax : (consolidateSequences L text).length ≤ 2147483649) :
    ∃ T', generateTrigramMap L text [] = some T' ∧ (∀ e ∈ T', 1 ≤ e.2) ∧
      totalCount T' = (((consolidateSequences L text).length - 2 : Nat) : Int) := by
  have hsize : (consolidateSequences L text).length < SIZE_MOD := by
    unfold SIZE_MOD
    omega
  obtain ⟨T', hrun, _, _, _⟩ := generateTrigramMap_spec L text []
    (by simp [KeysAscending]) (by omega) hsize
  have hloop : trigramLoop (consolidateSequences L text)
      ((consolidateSequences L text).length - 2) 0 [] = some T' := by
    rw [← loopBound_of_ge _ (by omega) hsize]
    exact hrun
  obtain ⟨hsum, hpos⟩ := trigramLoop_total _ _ _ _ _ hloop (by simp)
    (by unfold INT_MAX; simp only [totalCount, List.map_nil, List.sum_nil]; omega)
  refine ⟨T', hrun, hpos, ?_⟩
  rw [hsum]
  simp [totalCount]

theorem generateTrigramMap_total_witness :
    ∃ T', generateTrigramMap cLocale (wstr "a b c a b c a b") [] = some T' ∧
      (∀ e ∈ T', 1 ≤ e.2) ∧
      totalCount T' =
        (((consolidateSequences cLocale (wstr "a b c a b c a b")).length - 2 : Nat) : Int) :=
  generateTrigramMap_total cLocale (wstr "a b c a b c a b") (by decide) (by decide)

/-- C19: tokenization is idempotent on its own output: joining the tokens of a
text with single spaces and tokenizing the result returns the same tokens. -/
theorem consolidateSequences_idempotent (L : Locale) (hL : L.Conforming) (text : WString) :
    consolidateSequences L (joinWords (consolidateSequences L text)) =
      consolidateSequences L text :=
  consolidateSequences_joinWords L hL (consolidateSequences L text)
    (token_char_stable L hL text)

theorem consolidateSequences_idempotent_witness :
    consolidateSequences cLocale
        (joinWords (consolidateSequences cLocale (wstr "“Sandwiches,” he SAID"))) =
      consolidateSequences cLocale (wstr "“Sandwiches,” he SAID") ∧
    joinWords (consolidateSequences cLocale (wstr "“Sandwiches,” he SAID")) =
      wstr "sandwiches he said" :=
  ⟨consolidateSequences_idempotent cLocale cLocale_conforming (wstr "“Sandwiches,” he SAID"),
    by decide⟩

end Trigrams
